import Mathlib

/-!
A verification development for the core of the `genetic_series` repository:
expression trees with dual-precision evaluation, the series evaluator with
checkpointed convergence analysis, the fitness function, the simplifier,
mutation and the engine's two-phase evaluation dispatch.

Modelling conventions, used throughout:

* Numeric values (`float64` and `big.Float`) are modelled as exact rationals.
  Rounding of arithmetic is abstracted away; the claims settled here are about
  control flow, guard structure and exact value relationships, not about
  floating-point rounding.  `big.Float` has no NaN, and the fast path's
  `IsInf`/`IsNaN` guards can never fire on exact rationals, so those guards
  are dropped (noted at each definition).
* The transcendental helpers `math.Sin`, `math.Cos`, `math.Log`, `math.Sqrt`,
  `math.Pow`, `math.Log10` are platform functions on doubles; they are
  modelled as an abstract record `FloatOps` of total functions on rationals.
  Theorems that need a property of one of them (for example that the square
  root of an exact square is exact, which is true of the correctly rounded
  `math.Sqrt`) take that property as an explicit hypothesis.
* Go `int64` arithmetic wraps; `wrap64` reduces an integer into
  `[-2^63, 2^63)` exactly as two's-complement arithmetic does, and is applied
  at every operation where the Go source performs `int64` arithmetic that can
  overflow.
* `time`-based deadlines (the per-candidate evaluation timeout) are not
  representable in a shallow embedding; the evaluator is modelled without its
  timeout branch, matching every execution in which the deadline never fires.
  The claims touching the evaluator assume no timeout occurred.
-/

set_option maxHeartbeats 1000000

namespace GeneticSeries

/-- Abstract model of the platform floating-point library functions used by
the source (`math.Sin`, `math.Cos`, `math.Log`, `math.Sqrt`, `math.Pow`,
`math.Log10`), as total functions on exact rationals. -/
structure FloatOps where
  sin : ℚ → ℚ
  cos : ℚ → ℚ
  ln : ℚ → ℚ
  sqrt : ℚ → ℚ
  powf : ℚ → ℚ → ℚ
  log10 : ℚ → ℚ

/-- Unary operator tags, from `pkg/expr/node.go`. -/
inductive UnaryOp where
  | neg | factorial | altSign | doubleFactorial | fibonacci
  | sin | cos | ln | floor | ceil | abs | sqrt
  deriving DecidableEq, Repr

/-- Binary operator tags, from `pkg/expr/node.go`. -/
inductive BinaryOp where
  | add | sub | mul | div | pow | binomial
  deriving DecidableEq, Repr

/-- Expression trees (`VarNode`, `ConstNode`, `UnaryNode`, `BinaryNode` of
`pkg/expr/node.go`).  `ConstNode.Val` is an `int64` in the source; it is
modelled as an unbounded integer, with `wrap64` applied wherever the source
performs `int64` arithmetic on it. -/
inductive Expr where
  | var : Expr
  | const : ℤ → Expr
  | unary : UnaryOp → Expr → Expr
  | binary : BinaryOp → Expr → Expr → Expr
  deriving DecidableEq, Repr

namespace Expr

/-- `NodeCount` from `pkg/expr/complexity.go`. -/
def nodeCount : Expr → ℕ
  | var => 1
  | const _ => 1
  | unary _ c => 1 + c.nodeCount
  | binary _ l r => 1 + l.nodeCount + r.nodeCount

/-- `Depth` from `pkg/expr/complexity.go`. -/
def depth : Expr → ℕ
  | var => 1
  | const _ => 1
  | unary _ c => 1 + c.depth
  | binary _ l r => 1 + max l.depth r.depth

/-- `Clone` from `pkg/expr/clone.go` (a deep copy; structurally the identity). -/
def clone : Expr → Expr
  | var => var
  | const v => const v
  | unary op c => unary op c.clone
  | binary op l r => binary op l.clone r.clone

/-- `containsVar` / `ContainsVar` from the simplifier source file. -/
def containsVar : Expr → Bool
  | var => true
  | const _ => false
  | unary _ c => c.containsVar
  | binary _ l r => l.containsVar || r.containsVar

end Expr

/-- Two's-complement wrap-around of Go `int64` arithmetic: reduce into
`[-2^63, 2^63)`. -/
def wrap64 (z : ℤ) : ℤ := (z + 2 ^ 63) % 2 ^ 64 - 2 ^ 63

/-- In-range test for `int64`. -/
def inInt64 (z : ℤ) : Prop := -2 ^ 63 ≤ z ∧ z < 2 ^ 63

instance : DecidablePred inInt64 := fun z => by unfold inInt64; infer_instance

/-- `toInt64` from the big-float evaluator: a `big.Float` converts to `int64`
exactly when it is a whole number in the `int64` range. -/
def toInt64 (q : ℚ) : Option ℤ :=
  if q.den = 1 ∧ -2 ^ 63 ≤ q.num ∧ q.num < 2 ^ 63 then some q.num else none

/-- Iterative double factorial `n!! = n·(n-2)·…`; computes the same values as
both the memoized big-path cache recurrence and the simplifier's fold loop. -/
def doubleFactorial : ℕ → ℕ
  | 0 => 1
  | 1 => 1
  | n + 2 => (n + 2) * doubleFactorial n

/-- The binary-exponentiation loop shared by `intPow` (big path, cap 200) and
`intPowF64` (fast path, cap 20): `result`/`b`/`e` are the loop state. -/
def binPowQ (res b : ℚ) (e : ℕ) : ℚ :=
  if e = 0 then res
  else binPowQ (if e % 2 = 1 then res * b else res) (b * b) (e / 2)
  termination_by e
  decreasing_by exact Nat.div_lt_self (Nat.pos_of_ne_zero (by assumption)) (by norm_num)

/-- `intPow` from the big-float evaluator: integer exponent capped at 200.
The loop over exact rationals computes `base ^ exp`. -/
def intPow (base : ℚ) (e : ℤ) : Option ℚ :=
  if 200 < e then none else some (binPowQ 1 base e.toNat)

/-- `bigPow` from the big-float evaluator.  For non-integer exponents the
source falls back to `math.Pow` on doubles (modelled by `F.powf`); its
result-is-finite check cannot fire on exact rationals and is dropped. -/
def bigPow (F : FloatOps) (base exp : ℚ) : Option ℚ :=
  match toInt64 exp with
  | some ei =>
      if ei < 0 then
        if base = 0 then none
        else match intPow base (-ei) with
          | none => none
          | some pos => some (1 / pos)
      else intPow base ei
  | none =>
      if base < 0 then none else some (F.powf base exp)

/-- `bigFactorial`: whole number in `[0, 1000]` (`maxComputeInput`), value via
the memoized exact-integer cache, i.e. the factorial. -/
def bigFactorial (q : ℚ) : Option ℚ :=
  match toInt64 q with
  | none => none
  | some iv => if iv < 0 ∨ 1000 < iv then none else some (Nat.factorial iv.toNat : ℚ)

/-- `bigDoubleFactorial`: whole number in `[0, 1000]`, exact double factorial. -/
def bigDoubleFactorial (q : ℚ) : Option ℚ :=
  match toInt64 q with
  | none => none
  | some iv => if iv < 0 ∨ 1000 < iv then none else some (doubleFactorial iv.toNat : ℚ)

/-- `bigFibonacci`: whole number in `[0, 1000]`, exact Fibonacci number. -/
def bigFibonacci (q : ℚ) : Option ℚ :=
  match toInt64 q with
  | none => none
  | some iv => if iv < 0 ∨ 1000 < iv then none else some (Nat.fib iv.toNat : ℚ)

/-- `bigBinomial`: both arguments whole, `0 ≤ k ≤ n`; the symmetric-reduction
product loop over exact `big.Int`s computes the binomial coefficient. -/
def bigBinomial (nf kf : ℚ) : Option ℚ :=
  match toInt64 nf with
  | none => none
  | some n =>
      if n < 0 then none
      else match toInt64 kf with
        | none => none
        | some k =>
            if k < 0 ∨ n < k then none
            else some (Nat.choose n.toNat k.toNat : ℚ)

/-- Evaluation of a unary operator on an already-evaluated child value
(big-float path, `(u *UnaryNode) Eval` in the source).  The `Float64()`
conversions feeding `math.Sin`/`math.Cos`/`math.Log`/`math.Sqrt` are
modelled as exact; their `IsInf`/`IsNaN` guards cannot fire on rationals. -/
def evalUnary (F : FloatOps) : UnaryOp → ℚ → Option ℚ
  | .neg, v => some (-v)
  | .factorial, v => bigFactorial v
  | .altSign, v =>
      match toInt64 v with
      | none => none
      | some iv => if iv < 0 then none else some (if iv % 2 = 0 then 1 else -1)
  | .doubleFactorial, v => bigDoubleFactorial v
  | .fibonacci, v => bigFibonacci v
  | .sin, v => some (F.sin v)
  | .cos, v => some (F.cos v)
  | .ln, v => if v ≤ 0 then none else some (F.ln v)
  | .floor, v => some (⌊v⌋ : ℤ)
  | .ceil, v => some (⌈v⌉ : ℤ)
  | .abs, v => some |v|
  | .sqrt, v => if v < 0 then none else some (F.sqrt v)

/-- Evaluation of a binary operator on already-evaluated operand values
(big-float path, `(b *BinaryNode) Eval` in the source). -/
def evalBinary (F : FloatOps) : BinaryOp → ℚ → ℚ → Option ℚ
  | .add, a, b => some (a + b)
  | .sub, a, b => some (a - b)
  | .mul, a, b => some (a * b)
  | .div, a, b => if b = 0 then none else some (a / b)
  | .pow, a, b => bigPow F a b
  | .binomial, a, b => bigBinomial a b

/-- `Eval` (big-float path) over an expression tree: evaluate children first,
propagating the invalid flag, then apply the operator.  The precision
argument of the source only controls rounding and is dropped in the exact
model. -/
def Expr.eval (F : FloatOps) : Expr → ℚ → Option ℚ
  | .var, n => some n
  | .const v, _ => some (v : ℚ)
  | .unary op c, n => (c.eval F n).bind (evalUnary F op)
  | .binary op l r, n =>
      (l.eval F n).bind fun a => (r.eval F n).bind fun b => evalBinary F op a b

/-- Fast-path integer check: `iv := int64(child); child == float64(iv)`
means the double is a whole number (necessarily within `int64` range). -/
def toInt64F (q : ℚ) : Option ℤ :=
  if q.den = 1 ∧ -2 ^ 63 ≤ q.num ∧ q.num < 2 ^ 63 then some q.num else none

/-- `intPowF64`: the same binary-exponentiation loop with the fast-path
exponent cap of 20.  The result-finiteness check is vacuous on rationals. -/
def intPowF64 (base : ℚ) (e : ℤ) : Option ℚ :=
  if 20 < e then none else some (binPowQ 1 base e.toNat)

/-- `powF64` from the fast evaluator. -/
def powF64 (F : FloatOps) (base exp : ℚ) : Option ℚ :=
  match toInt64F exp with
  | some ei =>
      if ei < 0 then
        if base = 0 then none
        else match intPowF64 base (-ei) with
          | none => none
          | some pos => some (1 / pos)
      else intPowF64 base ei
  | none =>
      if base < 0 then none else some (F.powf base exp)

/-- `binomialF64`: integer arguments, `0 ≤ k ≤ n ≤ 1000`; the running
product computes the binomial coefficient (modelled exactly). -/
def binomialF64 (nf kf : ℚ) : Option ℚ :=
  match toInt64F nf, toInt64F kf with
  | some ni, some ki =>
      if ni < 0 ∨ ki < 0 ∨ ni < ki ∨ 1000 < ni then none
      else some (Nat.choose ni.toNat ki.toNat : ℚ)
  | _, _ => none

/-- Fast-path unary evaluation (`EvalF64` for `UnaryNode`).  Lookup-table
domain caps: factorial ≤ 170, double factorial ≤ 300, Fibonacci ≤ 1476;
table entries are modelled by the exact values they approximate. -/
def evalUnaryF64 (F : FloatOps) : UnaryOp → ℚ → Option ℚ
  | .neg, v => some (-v)
  | .factorial, v =>
      match toInt64F v with
      | none => none
      | some iv => if iv < 0 ∨ 170 < iv then none else some (Nat.factorial iv.toNat : ℚ)
  | .altSign, v =>
      match toInt64F v with
      | none => none
      | some iv => if iv < 0 then none else some (if iv % 2 = 0 then 1 else -1)
  | .doubleFactorial, v =>
      match toInt64F v with
      | none => none
      | some iv => if iv < 0 ∨ 300 < iv then none else some (doubleFactorial iv.toNat : ℚ)
  | .fibonacci, v =>
      match toInt64F v with
      | none => none
      | some iv => if iv < 0 ∨ 1476 < iv then none else some (Nat.fib iv.toNat : ℚ)
  | .sin, v => some (F.sin v)
  | .cos, v => some (F.cos v)
  | .ln, v => if v ≤ 0 then none else some (F.ln v)
  | .floor, v => some (⌊v⌋ : ℤ)
  | .ceil, v => some (⌈v⌉ : ℤ)
  | .abs, v => some |v|
  | .sqrt, v => if v < 0 then none else some (F.sqrt v)

/-- Fast-path binary evaluation (`EvalF64` for `BinaryNode`).  The
non-finite-result guards of add/sub/mul/div cannot fire on rationals. -/
def evalBinaryF64 (F : FloatOps) : BinaryOp → ℚ → ℚ → Option ℚ
  | .add, a, b => some (a + b)
  | .sub, a, b => some (a - b)
  | .mul, a, b => some (a * b)
  | .div, a, b => if b = 0 then none else some (a / b)
  | .pow, a, b => powF64 F a b
  | .binomial, a, b => binomialF64 a b

/-- `EvalF64` over an expression tree. -/
def Expr.evalF64 (F : FloatOps) : Expr → ℚ → Option ℚ
  | .var, n => some n
  | .const v, _ => some (v : ℚ)
  | .unary op c, n => (c.evalF64 F n).bind (evalUnaryF64 F op)
  | .binary op l r, n =>
      (l.evalF64 F n).bind fun a => (r.evalF64 F n).bind fun b => evalBinaryF64 F op a b

end GeneticSeries

namespace GeneticSeries

/-- Compact inline rendering of an expression (`String()` methods of the
source; `%d` on `int64` is decimal, matching `toString` on `ℤ`). -/
def exprString : Expr → String
  | .var => "n"
  | .const v => toString v
  | .unary op c =>
      let s := exprString c
      match op with
      | .neg => "(-" ++ s ++ ")"
      | .factorial => "(" ++ s ++ ")!"
      | .altSign => "(-1)^(" ++ s ++ ")"
      | .doubleFactorial => "(" ++ s ++ ")!!"
      | .fibonacci => "fib(" ++ s ++ ")"
      | .sin => "sin(" ++ s ++ ")"
      | .cos => "cos(" ++ s ++ ")"
      | .ln => "ln(" ++ s ++ ")"
      | .floor => "floor(" ++ s ++ ")"
      | .ceil => "ceil(" ++ s ++ ")"
      | .abs => "abs(" ++ s ++ ")"
      | .sqrt => "sqrt(" ++ s ++ ")"
  | .binary op l r =>
      let ls := exprString l
      let rs := exprString r
      match op with
      | .add => "(" ++ ls ++ " + " ++ rs ++ ")"
      | .sub => "(" ++ ls ++ " - " ++ rs ++ ")"
      | .mul => "(" ++ ls ++ " * " ++ rs ++ ")"
      | .div => "(" ++ ls ++ " / " ++ rs ++ ")"
      | .pow => "(" ++ ls ++ ")^(" ++ rs ++ ")"
      | .binomial => "C(" ++ ls ++ ", " ++ rs ++ ")"

/-- `unaryWeight` from `pkg/expr/complexity.go`. -/
def unaryWeight : UnaryOp → ℚ
  | .neg | .abs => 1
  | .factorial | .altSign => 2
  | .doubleFactorial | .fibonacci => 3
  | .sin | .cos | .ln => 3
  | .floor | .ceil => 2
  | .sqrt => 2

/-- `binaryWeight` from `pkg/expr/complexity.go`. -/
def binaryWeight : BinaryOp → ℚ
  | .add | .sub => 1
  | .mul | .div => 3 / 2
  | .pow => 2
  | .binomial => 3

/-- `WeightedComplexity` from `pkg/expr/complexity.go`.  The `v = -v`
negation of a negative constant is `int64` negation and wraps at the minimum
(`wrap64`); `math.Log10` is the abstract `F.log10`. -/
def WeightedComplexity (F : FloatOps) : Expr → ℚ
  | .var => 1
  | .const v =>
      let a := if v < 0 then wrap64 (-v) else v
      if a ≤ 10 then 1 else 1 + F.log10 (a : ℚ)
  | .unary op c => unaryWeight op + WeightedComplexity F c
  | .binary op l r => binaryWeight op + WeightedComplexity F l + WeightedComplexity F r

/-- The exact mathematical result of a fold of `foldConstants`
(for the divide case, exact only under the fold's own divisibility guard). -/
def exactFold : BinaryOp → ℤ → ℤ → ℤ
  | .add, a, b => a + b
  | .sub, a, b => a - b
  | .mul, a, b => a * b
  | .div, a, b => a.tdiv b
  | .pow, a, b => a ^ b.toNat
  | .binomial, _, _ => 0

/-- The repeated-multiplication loop of the `OpPow` case of `foldConstants`:
each `result *= base` is an `int64` multiplication and wraps. -/
def powWrap (a : ℤ) : ℕ → ℤ
  | 0 => 1
  | n + 1 => wrap64 (powWrap a n * a)

/-- `foldConstants` from the simplifier source.  All arithmetic is Go
`int64` arithmetic: `+`, `-`, `*` wrap (`wrap64`); `/` is truncated division
(wrapping only at `MinInt64 / -1`); `%` is the truncated remainder.  Only
the multiply case carries an overflow check (`result/a != b`). -/
def foldConstants : BinaryOp → ℤ → ℤ → Option ℤ
  | .add, a, b => some (wrap64 (a + b))
  | .sub, a, b => some (wrap64 (a - b))
  | .mul, a, b =>
      if a ≠ 0 ∧ b ≠ 0 then
        let result := wrap64 (a * b)
        if wrap64 (result.tdiv a) ≠ b then none else some result
      else some 0
  | .div, a, b =>
      if b = 0 then none
      else if a.tmod b ≠ 0 then none
      else some (wrap64 (a.tdiv b))
  | .pow, a, b =>
      if b < 0 then none
      else if 20 < b then none
      else some (powWrap a b.toNat)
  | .binomial, _, _ => none

/-- The constant value of an expression when it is a literal constant node
(the `left.(*ConstNode)` / `right.(*ConstNode)` type assertions). -/
def Expr.constVal? : Expr → Option ℤ
  | .const v => some v
  | _ => none

/-- The `*UnaryNode` rules of `simplifyOnce`: rewriting of a unary node
whose child has already been simplified to `child` (non-recursive in the
source as well).  The second component is the instrumentation flag (see
`simplifyOnceI`): it propagates `okc` and is cleared exactly on an `int64`
constant negation (`-(k)` or `abs(k)`) that wraps. -/
def simplifyUnaryRules (op : UnaryOp) (child : Expr) (okc : Bool) : Expr × Bool :=
  match op, child with
  | .neg, .unary .neg inner => (inner, okc)
  | .neg, .const k => (.const (wrap64 (-k)), okc && decide (wrap64 (-k) = -k))
  | .factorial, .const k =>
      if 0 ≤ k ∧ k ≤ 20 then (.const (Nat.factorial k.toNat), okc)
      else (.unary .factorial child, okc)
  | .doubleFactorial, .const k =>
      if 0 ≤ k ∧ k ≤ 20 then (.const (doubleFactorial k.toNat), okc)
      else (.unary .doubleFactorial child, okc)
  | .altSign, .const k =>
      if 0 ≤ k then (.const (if k % 2 = 0 then 1 else -1), okc)
      else (.unary .altSign child, okc)
  | .abs, .const k =>
      if k < 0 then (.const (wrap64 (-k)), okc && decide (wrap64 (-k) = -k))
      else (.const k, okc)
  | .sqrt, .const k =>
      if 0 ≤ k ∧ Int.sqrt k * Int.sqrt k = k then (.const (Int.sqrt k), okc)
      else (.unary .sqrt child, okc)
  | o, ch => (.unary o ch, okc)

/-- The `*BinaryNode` rules of `simplifyOnce`: constant folding followed by
the per-operator rewrites, on operands already simplified to `left` and
`right`.  The source re-enters `simplifyOnce` on freshly built nodes
(`return simplifyOnce(...)`); those re-entries are the calls to `re`
(instantiated with the fuel-limited pass itself).  The second component is
the instrumentation flag (see `simplifyOnceI`). -/
def simplifyBinaryRewrites (re : Expr → Expr × Bool) (op : BinaryOp)
    (left right : Expr) (ok0 : Bool) : Expr × Bool :=
  match op with
    | .add =>
        if right.constVal? = some 0 then (left, ok0)
        else if left.constVal? = some 0 then (right, ok0)
        else
          match right.constVal? with
          | some rc =>
              if rc < 0 then
                let q := re (.binary .sub left (.const (wrap64 (-rc))))
                (q.1, ok0 && decide (wrap64 (-rc) = -rc) && q.2)
              else (.binary .add left right, ok0)
          | none =>
              match right with
              | .unary .neg u =>
                  let q := re (.binary .sub left u)
                  (q.1, ok0 && q.2)
              | _ => (.binary .add left right, ok0)
    | .sub =>
        if right.constVal? = some 0 then (left, ok0)
        else if left.constVal? = some 0 then
          let q := re (.unary .neg right)
          (q.1, ok0 && q.2)
        else
          match right.constVal? with
          | some rc =>
              if rc < 0 then
                let q := re (.binary .add left (.const (wrap64 (-rc))))
                (q.1, ok0 && decide (wrap64 (-rc) = -rc) && q.2)
              else if exprString left = exprString right then
                (.const 0, ok0 && decide (left = right))
              else (.binary .sub left right, ok0)
          | none =>
              match right with
              | .unary .neg u =>
                  let q := re (.binary .add left u)
                  (q.1, ok0 && q.2)
              | _ =>
                  if exprString left = exprString right then
                    (.const 0, ok0 && decide (left = right))
                  else (.binary .sub left right, ok0)
    | .mul =>
        if right.constVal? = some 0 then (.const 0, ok0)
        else if left.constVal? = some 0 then (.const 0, ok0)
        else if right.constVal? = some 1 then (left, ok0)
        else if left.constVal? = some 1 then (right, ok0)
        else if right.constVal? = some (-1) then
          let q := re (.unary .neg left)
          (q.1, ok0 && q.2)
        else if left.constVal? = some (-1) then
          let q := re (.unary .neg right)
          (q.1, ok0 && q.2)
        else (.binary .mul left right, ok0)
    | .div =>
        if right.constVal? = some 1 then (left, ok0)
        else if left.constVal? = some 0 then (.const 0, ok0)
        else if exprString left = exprString right then
          (.const 1, ok0 && decide (left = right))
        else (.binary .div left right, ok0)
    | .pow =>
        if right.constVal? = some 0 then (.const 1, ok0)
        else if right.constVal? = some 1 then (left, ok0)
        else if left.constVal? = some 0 then (.const 0, false)
        else if left.constVal? = some 1 then (.const 1, ok0)
        else (.binary .pow left right, ok0)
    | .binomial => (.binary .binomial left right, ok0)

/-- The `*BinaryNode` case of `simplifyOnce`: constant folding of two
constant operands first, then the per-operator rewrites
(`simplifyBinaryRewrites`). -/
def simplifyBinaryRules (re : Expr → Expr × Bool) (op : BinaryOp)
    (left right : Expr) (ok0 : Bool) : Expr × Bool :=
  let folded : Option (Expr × Bool) :=
    match left.constVal?, right.constVal? with
    | some a, some b =>
        (foldConstants op a b).map fun res =>
          (.const res, ok0 && decide (res = exactFold op a b))
    | _, _ => none
  match folded with
  | some q => q
  | none => simplifyBinaryRewrites re op left right ok0

/-- One bottom-up rewriting pass of the simplifier, `simplifyOnce`, together
with an instrumentation flag (second component, not present in the source):
the flag is `true` when every rewrite performed is value-exact — constant
folds whose wrapped `int64` result equals the exact result, `int64` constant
negations that do not wrap, structural-equality rewrites (`x - x`, `x / x`)
whose operands are syntactically identical trees (not merely equal strings),
and no `0^x → 0` rewrite (which is unsound when `x` evaluates to `0`, since
evaluation yields `0^0 = 1`).  The flag supports stating exactly when the
pass preserves evaluation.

The source recurses into freshly built nodes (`return simplifyOnce(...)`);
those non-structural calls are paid for by the `fuel` argument, which the
caller sets generously (`simplifyFuel`); on exhaustion the node is returned
unrewritten with the flag cleared. -/
def simplifyOnceI : ℕ → Expr → Expr × Bool
  | 0, t => (t, false)
  | fuel + 1, t =>
      match t with
      | .var => (.var, true)
      | .const v => (.const v, true)
      | .unary op c =>
          let p := simplifyOnceI fuel c
          simplifyUnaryRules op p.1 p.2
      | .binary op l r =>
          let pl := simplifyOnceI fuel l
          let pr := simplifyOnceI fuel r
          simplifyBinaryRules (fun u => simplifyOnceI fuel u) op pl.1 pr.1 (pl.2 && pr.2)

/-- Fuel that is ample for `simplifyOnceI` to mirror the source's
`simplifyOnce` on any tree reached in practice: the recursion depth is
bounded by the node count times the (node-count-bounded) number of
rearrangement re-entries. -/
def simplifyFuel (t : Expr) : ℕ := 4 * t.nodeCount * t.nodeCount + 8

/-- `simplifyOnce` of the source: the rewriting pass without the
instrumentation flag. -/
def simplifyOnce (t : Expr) : Expr := (simplifyOnceI (simplifyFuel t) t).1

/-- The `Simplify` iteration (cap 20, stop when the rendering is unchanged),
threading the instrumentation flag through all passes performed. -/
def simplifyIter : ℕ → Expr → Expr × Bool
  | 0, t => (t, true)
  | k + 1, t =>
      let p := simplifyOnceI (simplifyFuel t) t
      if exprString p.1 = exprString t then p
      else
        let q := simplifyIter k p.1
        (q.1, p.2 && q.2)

/-- `Simplify` from the simplifier source. -/
def Simplify (t : Expr) : Expr := (simplifyIter 20 t).1

/-- All rewrites performed by `Simplify t` were value-exact (see
`simplifyOnceI`). -/
def simplifySound (t : Expr) : Bool := (simplifyIter 20 t).2

end GeneticSeries

namespace GeneticSeries

/-- `Candidate` from `pkg/series`: `Sum_{n=Start}^{inf} Numerator(n)/Denominator(n)`. -/
structure Candidate where
  Numerator : Expr
  Denominator : Expr
  Start : ℤ
  deriving DecidableEq, Repr

/-- `Candidate.Clone`. -/
def Candidate.clone (c : Candidate) : Candidate :=
  ⟨c.Numerator.clone, c.Denominator.clone, c.Start⟩

/-- `Candidate.String`, the canonical rendering and tabu key:
`Sum_{n=<start>}^{inf} (<num>) / (<den>)`. -/
def Candidate.string (c : Candidate) : String :=
  "Sum_\x7bn=" ++ toString c.Start ++ "\x7d^\x7binf\x7d (" ++ exprString c.Numerator ++
    ") / (" ++ exprString c.Denominator ++ ")"

/-- `Candidate.NodeCount`: total node count of both trees. -/
def Candidate.nodes (c : Candidate) : ℕ :=
  c.Numerator.nodeCount + c.Denominator.nodeCount

/-- `Candidate.Complexity`: combined weighted complexity of both trees. -/
def Candidate.complexity (F : FloatOps) (c : Candidate) : ℚ :=
  WeightedComplexity F c.Numerator + WeightedComplexity F c.Denominator

/-- `EvalResult` (big-float variant).  The partial sum is `none` when absent
(the `nil` pointer of the zero value). -/
structure EvalResult where
  PartialSum : Option ℚ
  TermsComputed : ℕ
  Converged : Bool
  ConvergenceRate : ℚ
  OK : Bool
  deriving DecidableEq, Repr

/-- The Go zero value of `EvalResult`, as produced by `EvalResult{OK: false}`
and by never writing `results[i]`. -/
def EvalResult.zero : EvalResult :=
  ⟨none, 0, false, 0, false⟩

/-- `EvalResultF64` (fast variant). -/
structure EvalResultF64 where
  PartialSum : ℚ
  TermsComputed : ℕ
  Converged : Bool
  OK : Bool
  deriving DecidableEq, Repr

/-- The Go zero value of `EvalResultF64`. -/
def EvalResultF64.zero : EvalResultF64 :=
  ⟨0, 0, false, false⟩

/-- `FitnessWeights`. -/
structure FitnessWeights where
  Accuracy : ℚ
  Complexity : ℚ
  Convergence : ℚ
  deriving DecidableEq, Repr

/-- `Fitness`. -/
structure Fitness where
  Combined : ℚ
  CorrectDigits : ℚ
  Simplicity : ℚ
  ConvergenceRate : ℚ
  deriving DecidableEq, Repr

/-- `WorstFitness`: the sentinel for invalid/failed candidates,
`combined = -10^9`. -/
def WorstFitness : Fitness :=
  ⟨-(10 ^ 9 : ℚ), 0, 0, 0⟩

/-- `MaxDigits = 50`, the precise-path digit constant. -/
def MaxDigits : ℚ := 50

/-- `maxDigitsF64 = 15`, the fast-path digit cap. -/
def maxDigitsF64 : ℚ := 15

/-- `countCorrectDigits` (big path).  `nil` arguments give `0`; a zero
difference gives `MaxDigits`; otherwise `max(0, -log10(relative error))`
(absolute error when the target is zero), with no further cap.  The
`errFloat == 0` / `f == 0` branches model the `Float64()` underflow check
and cannot fire on exact rationals, but are kept for structure. -/
def countCorrectDigits (F : FloatOps) : Option ℚ → Option ℚ → ℚ
  | some c, some t =>
      let diff := |c - t|
      if diff = 0 then MaxDigits
      else if |t| = 0 then
        if diff = 0 then MaxDigits else max 0 (-F.log10 diff)
      else
        let relErr := diff / |t|
        if relErr = 0 then MaxDigits else max 0 (-F.log10 relErr)
  | _, _ => 0

/-- `countCorrectDigitsF64` (fast path): as above but clamped to
`maxDigitsF64 = 15` in every branch. -/
def countCorrectDigitsF64 (F : FloatOps) (computed target : ℚ) : ℚ :=
  let diff := |computed - target|
  if diff = 0 then maxDigitsF64
  else if |target| = 0 then max 0 (min (-F.log10 diff) maxDigitsF64)
  else
    let relErr := diff / |target|
    if relErr = 0 then maxDigitsF64
    else max 0 (min (-F.log10 relErr) maxDigitsF64)

/-- The divergence rejection test of `ComputeFitness`: the partial sum is
further than `10^50` from the target, relatively (absolutely for target 0).
The `IsInf`/`IsNaN` guards of the `Float64()` conversion cannot fire on
exact rationals. -/
def divergedChk (p target : ℚ) : Bool :=
  if 0 < |target| then decide (10 ^ 50 < |p - target| / |target|)
  else decide ((10 : ℚ) ^ 50 < |p - target|)

/-- `ComputeFitness` (big path) from `pkg/series/fitness.go`: the five
degenerate-series guards in source order, then digits, complexity,
accuracy-scaled penalty and the combined score. -/
def ComputeFitness (F : FloatOps) (c : Candidate) (result : EvalResult)
    (target : ℚ) (weights : FitnessWeights) : Fitness :=
  if !result.OK then WorstFitness
  else if !c.Numerator.containsVar && !c.Denominator.containsVar then WorstFitness
  else if !c.Denominator.containsVar then WorstFitness
  else if !result.Converged then WorstFitness
  else if (match result.PartialSum with
           | some p => divergedChk p target
           | none => false) then WorstFitness
  else
    let correctDigits := countCorrectDigits F result.PartialSum (some target)
    let complexity := c.complexity F
    let simplicity := 1 / max complexity 1
    let penaltyScale := min correctDigits 5 / 5
    let combined := weights.Accuracy * correctDigits - weights.Complexity * complexity * penaltyScale
    ⟨combined, correctDigits, simplicity, result.ConvergenceRate⟩

/-- `ComputeFitnessF64` (fast path): same guards; the partial sum is a plain
`float64`, so its divergence check is unconditional; `ConvergenceRate` is
left at its zero value. -/
def ComputeFitnessF64 (F : FloatOps) (c : Candidate) (result : EvalResultF64)
    (targetF64 : ℚ) (weights : FitnessWeights) : Fitness :=
  if !result.OK then WorstFitness
  else if !c.Numerator.containsVar && !c.Denominator.containsVar then WorstFitness
  else if !c.Denominator.containsVar then WorstFitness
  else if !result.Converged then WorstFitness
  else if divergedChk result.PartialSum targetF64 then WorstFitness
  else
    let correctDigits := countCorrectDigitsF64 F result.PartialSum targetF64
    let complexity := c.complexity F
    let simplicity := 1 / max complexity 1
    let penaltyScale := min correctDigits 5 / 5
    let combined := weights.Accuracy * correctDigits - weights.Complexity * complexity * penaltyScale
    ⟨combined, correctDigits, simplicity, 0⟩

/-- `analyzeConvergence`'s inner loop over the difference list: fold over
adjacent pairs `(diffs[i-1], diffs[i])`, skipping pairs whose first entry is
zero, accumulating `(totalRatio, validRatios, converging)`. -/
def ratioFold (acc : ℚ × ℕ × Bool) (p : ℚ × ℚ) : ℚ × ℕ × Bool :=
  if p.1 = 0 then acc
  else (acc.1 + p.2 / p.1, acc.2.1 + 1, acc.2.2 && decide (p.2 / p.1 < 1))

/-- `analyzeConvergence` from `pkg/series/evaluate.go`, on the checkpoint
sums (the `terms` field of a checkpoint is unused by the analysis).  The
differences are `|s_{k+1} - s_k|`; the `Float64()` conversion of each
difference is modelled as exact. -/
def analyzeConvergence (cps : List ℚ) : Bool × ℚ :=
  if cps.length < 3 then (false, 0)
  else
    let diffs := (cps.zip cps.tail).map fun p => |p.2 - p.1|
    if diffs.length < 2 then (false, 0)
    else
      let st := (diffs.zip diffs.tail).foldl ratioFold (0, 0, true)
      if st.2.1 = 0 then (true, 1)
      else
        let avg := st.1 / (st.2.1 : ℚ)
        (st.2.2 && decide (avg < 99 / 100), avg)

/-- State of the big-path partial-sum loop: current sum, checkpoint sums so
far (in order), the next checkpoint offset, and the count of completed
terms. -/
structure BigLoopState where
  sum : ℚ
  checkpoints : List ℚ
  nextCheckpoint : ℤ
  termsComputed : ℕ
  deriving Repr

/-- The body iteration of `EvaluateCandidate`'s loop, from term index `i`
with `remaining` budget.  A failing numerator/denominator or a zero
denominator stops the loop (`break`), returning the state accumulated so
far.  The deadline check is omitted (no-timeout executions). -/
def bigLoop (F : FloatOps) (c : Candidate) : ℕ → ℤ → BigLoopState → BigLoopState
  | 0, _, st => st
  | remaining + 1, i, st =>
      match c.Numerator.eval F i with
      | none => st
      | some num =>
        match c.Denominator.eval F i with
        | none => st
        | some den =>
          if den = 0 then st
          else
            let sum := st.sum + num / den
            let offset := i - c.Start + 1
            let st2 : BigLoopState :=
              if offset = st.nextCheckpoint then
                ⟨sum, st.checkpoints ++ [sum], st.nextCheckpoint * 2, st.termsComputed + 1⟩
              else
                ⟨sum, st.checkpoints, st.nextCheckpoint, st.termsComputed + 1⟩
            bigLoop F c remaining (i + 1) st2

/-- `EvaluateCandidate` (big path) without its timeout branch: run the term
loop, require at least 4 completed terms, then analyze convergence of the
recorded checkpoints. -/
def EvaluateCandidate (F : FloatOps) (c : Candidate) (maxTerms : ℕ) : EvalResult :=
  let st := bigLoop F c maxTerms c.Start ⟨0, [], 1, 0⟩
  if st.termsComputed < 4 then EvalResult.zero
  else
    let conv := analyzeConvergence st.checkpoints
    ⟨some st.sum, st.termsComputed, conv.1, conv.2, true⟩

/-- State of the fast-path loop: sum, the 3-slot ring of checkpoint sums
(`cpSums`), the write index `cpIdx`, the checkpoint count, the next
checkpoint offset, and the completed-term count. -/
structure FastLoopState where
  sum : ℚ
  ring0 : ℚ
  ring1 : ℚ
  ring2 : ℚ
  cpIdx : ℕ
  cpCount : ℕ
  nextCheckpoint : ℤ
  termsComputed : ℕ
  deriving Repr

/-- Write a checkpoint sum into ring slot `cpIdx % 3`. -/
def FastLoopState.writeRing (st : FastLoopState) (v : ℚ) : FastLoopState :=
  if st.cpIdx % 3 = 0 then { st with ring0 := v }
  else if st.cpIdx % 3 = 1 then { st with ring1 := v }
  else { st with ring2 := v }

/-- Read ring slot `k % 3`. -/
def FastLoopState.readRing (st : FastLoopState) (k : ℕ) : ℚ :=
  if k % 3 = 0 then st.ring0
  else if k % 3 = 1 then st.ring1
  else st.ring2

/-- The body iteration of `EvaluateCandidateF64`'s loop.  The non-finite-sum
abort cannot fire on exact rationals (the claims it supports assume no
non-finite sum occurred). -/
def fastLoop (F : FloatOps) (c : Candidate) : ℕ → ℤ → FastLoopState → FastLoopState
  | 0, _, st => st
  | remaining + 1, i, st =>
      match c.Numerator.evalF64 F i with
      | none => st
      | some num =>
        match c.Denominator.evalF64 F i with
        | none => st
        | some den =>
          if den = 0 then st
          else
            let sum := st.sum + num / den
            let offset := i - c.Start + 1
            let st1 := { st with sum := sum, termsComputed := st.termsComputed + 1 }
            let st2 : FastLoopState :=
              if offset = st.nextCheckpoint then
                { st1.writeRing sum with
                    cpIdx := st.cpIdx + 1
                    cpCount := st.cpCount + 1
                    nextCheckpoint := st.nextCheckpoint * 2 }
              else st1
            fastLoop F c remaining (i + 1) st2

/-- `analyzeConvergenceF64`: extract the last three checkpoints from the
ring and compare one difference ratio against `0.99`. -/
def analyzeConvergenceF64 (st : FastLoopState) : Bool :=
  if st.cpCount < 3 then false
  else
    let oldest := (st.cpCount - 3) % 3
    let s0 := st.readRing oldest
    let s1 := st.readRing (oldest + 1)
    let s2 := st.readRing (oldest + 2)
    let d0 := |s1 - s0|
    let d1 := |s2 - s1|
    if d0 = 0 then true
    else decide (d1 / d0 < 99 / 100)

/-- `EvaluateCandidateF64` (fast path). -/
def EvaluateCandidateF64 (F : FloatOps) (c : Candidate) (maxTerms : ℕ) : EvalResultF64 :=
  let st := fastLoop F c maxTerms c.Start ⟨0, 0, 0, 0, 0, 0, 1, 0⟩
  if st.termsComputed < 4 then EvalResultF64.zero
  else ⟨st.sum, st.termsComputed, analyzeConvergenceF64 st, true⟩

end GeneticSeries

namespace GeneticSeries

instance : Inhabited Candidate := ⟨⟨.var, .var, 0⟩⟩

instance : Inhabited Fitness := ⟨⟨0, 0, 0, 0⟩⟩

/-- The engine options consumed by the evaluation dispatch
(`pkg/engine`): the per-candidate term budget, the fitness weights and the
fast-to-precise promotion threshold.  Worker count only affects scheduling
of the disjoint per-index jobs and precision only affects rounding; both are
abstracted. -/
structure EngineCfg where
  MaxTerms : ℕ
  Weights : FitnessWeights
  F64PromotionThreshold : ℚ

/-- `evaluateBigFloat` from `pkg/engine/engine.go`: run big-float evaluation
on the selected candidates (`promote = none` selects everyone), overwriting
fitness and result; a tabu candidate gets `WorstFitness` without evaluation
and its result entry is left untouched.  The worker pool writes disjoint
indices, so the parallel loop is modelled index-wise. -/
def evaluateBigFloat (F : FloatOps) (cfg : EngineCfg) (target : ℚ)
    (tabu : List String) (pop : List Candidate)
    (init : List (Fitness × EvalResult)) (promote : Option (List Bool)) :
    List (Fitness × EvalResult) :=
  (List.range pop.length).map fun i =>
    let c := pop.getD i default
    let cur := init.getD i (default, EvalResult.zero)
    let selected := match promote with
      | none => true
      | some pr => pr.getD i false
    if selected then
      if c.string ∈ tabu then (WorstFitness, cur.2)
      else
        let r := EvaluateCandidate F c cfg.MaxTerms
        (ComputeFitness F c r target cfg.Weights, r)
    else cur

/-- Phase 1 of `evaluatePopulation`: fast evaluation of every candidate,
producing the fast fitness and the promotion flag
(`f64.CorrectDigits >= threshold`); tabu candidates get `WorstFitness` and
are never promoted. -/
def evaluateFastPhase (F : FloatOps) (cfg : EngineCfg) (targetF64 : ℚ)
    (tabu : List String) (pop : List Candidate) : List (Fitness × Bool) :=
  pop.map fun c =>
    if c.string ∈ tabu then (WorstFitness, false)
    else
      let r64 := EvaluateCandidateF64 F c cfg.MaxTerms
      let f64 := ComputeFitnessF64 F c r64 targetF64 cfg.Weights
      (f64, decide (cfg.F64PromotionThreshold ≤ f64.CorrectDigits))

/-- `evaluatePopulation` from `pkg/engine/engine.go`: with the promotion
threshold disabled (`<= 0`), big-float evaluation for everyone over
zero-valued fitness/result arrays; otherwise the fast phase for all
candidates followed by big-float evaluation of exactly the promoted ones. -/
def evaluatePopulation (F : FloatOps) (cfg : EngineCfg) (target targetF64 : ℚ)
    (tabu : List String) (pop : List Candidate) : List (Fitness × EvalResult) :=
  if cfg.F64PromotionThreshold ≤ 0 then
    evaluateBigFloat F cfg target tabu pop
      (pop.map fun _ => (default, EvalResult.zero)) none
  else
    let ph := evaluateFastPhase F cfg targetF64 tabu pop
    evaluateBigFloat F cfg target tabu pop
      (ph.map fun q => (q.1, EvalResult.zero)) (some (ph.map Prod.snd))

/-- The engine's seeded random source, modelled as two oracle streams with
positions: `intn n` consumes from the integer stream (reduced mod `n`, so
the result is always in `[0, n)` like `rand.Intn`), `float` consumes from
the `[0,1)` float stream. -/
structure Rng where
  ints : ℕ → ℕ
  floats : ℕ → ℚ
  ipos : ℕ
  fpos : ℕ

/-- `rng.Intn(n)`. -/
def Rng.intn (r : Rng) (n : ℕ) : ℕ × Rng :=
  (r.ints r.ipos % n, { r with ipos := r.ipos + 1 })

/-- `rng.Float64()`. -/
def Rng.float (r : Rng) : ℚ × Rng :=
  (r.floats r.fpos, { r with fpos := r.fpos + 1 })

/-- The `pool.Pool` interface: random leaves and operators.  (`RandomTree`
is the shared helper `randomTree` below, as in the source.) -/
structure Pool where
  randomLeaf : Rng → Expr × Rng
  randomUnary : Rng → UnaryOp × Rng
  randomBinary : Rng → BinaryOp × Rng

/-- The shared `randomTree` helper of `pkg/pool/pool.go`: a leaf when the
depth budget reaches 1, otherwise leaf with probability 0.4, unary 0.2,
binary 0.4. -/
def randomTree (p : Pool) (rng : Rng) : ℕ → Expr × Rng
  | 0 => p.randomLeaf rng
  | 1 => p.randomLeaf rng
  | d + 2 =>
      let fr := rng.float
      if fr.1 < 2 / 5 then p.randomLeaf fr.2
      else if fr.1 < 3 / 5 then
        let u := p.randomUnary fr.2
        let child := randomTree p u.2 (d + 1)
        (.unary u.1 child.1, child.2)
      else
        let b := p.randomBinary fr.2
        let lt := randomTree p b.2 (d + 1)
        let rt := randomTree p lt.2 (d + 1)
        (.binary b.1 lt.1 rt.1, rt.2)

/-- The `conservative` pool of `pkg/pool/conservative.go`. -/
def conservativePool : Pool where
  randomLeaf := fun rng =>
    let fr := rng.float
    if fr.1 < 2 / 5 then (.var, fr.2)
    else
      let k := fr.2.intn 10
      (.const ((k.1 : ℤ) + 1), k.2)
  randomUnary := fun rng =>
    let k := rng.intn 3
    ([UnaryOp.factorial, .altSign, .neg].getD k.1 .factorial, k.2)
  randomBinary := fun rng =>
    let k := rng.intn 4
    ([BinaryOp.add, .sub, .mul, .div].getD k.1 .add, k.2)

/-- `maxTreeDepth = 10`. -/
def maxTreeDepth : ℕ := 10

/-- `maxNodeCount = 25`. -/
def maxNodeCount : ℕ := 25

/-- `candidateOK`, the strategies' admission filter. -/
def candidateOK (c : Candidate) : Bool :=
  decide (c.Numerator.depth ≤ maxTreeDepth) &&
    decide (c.Denominator.depth ≤ maxTreeDepth) &&
    decide (c.nodes ≤ maxNodeCount)

/-- `randomCandidate`: two random trees of the given maximum depth and a
random start index in `{0, 1}`. -/
def randomCandidate (p : Pool) (rng : Rng) (maxDepth : ℕ) : Candidate × Rng :=
  let num := randomTree p rng maxDepth
  let den := randomTree p num.2 maxDepth
  let s := den.2.intn 2
  (⟨num.1, den.1, (s.1 : ℤ)⟩, s.2)

/-- All subtrees of a tree in preorder (node first, then children), the
order in which `collectNodes` collects its node pointers. -/
def Expr.subtrees : Expr → List Expr
  | .var => [.var]
  | .const v => [.const v]
  | .unary op c => .unary op c :: c.subtrees
  | .binary op l r => .binary op l r :: (l.subtrees ++ r.subtrees)

/-- Paths (child-index lists) to all nodes in preorder; the path analogue of
`collectNodes`'s pointer list. -/
def Expr.pathsPre : Expr → List (List ℕ)
  | .var => [[]]
  | .const _ => [[]]
  | .unary _ c => [] :: (c.pathsPre.map (0 :: ·))
  | .binary _ l r => [] :: (l.pathsPre.map (0 :: ·) ++ r.pathsPre.map (1 :: ·))

/-- Read the subtree at a path. -/
def Expr.getAt : Expr → List ℕ → Option Expr
  | t, [] => some t
  | .unary _ c, 0 :: p => c.getAt p
  | .binary _ l _, 0 :: p => l.getAt p
  | .binary _ _ r, 1 :: p => r.getAt p
  | _, _ => none

/-- Replace the subtree at a path (the in-place write through a
`collectNodes` pointer). -/
def Expr.setAt : Expr → List ℕ → Expr → Expr
  | _, [], s => s
  | .unary op c, 0 :: p, s => .unary op (c.setAt p s)
  | .binary op l r, 0 :: p, s => .binary op (l.setAt p s) r
  | .binary op l r, 1 :: p, s => .binary op l (r.setAt p s)
  | t, _, _ => t

/-- Paths to all constant nodes in preorder (`collectConsts`). -/
def Expr.constPaths : Expr → List (List ℕ)
  | .var => []
  | .const _ => [[]]
  | .unary _ c => c.constPaths.map (0 :: ·)
  | .binary _ l r => l.constPaths.map (0 :: ·) ++ r.constPaths.map (1 :: ·)

/-- `pointMutate`: a uniformly random node; a leaf is replaced by a fresh
random leaf, an operator node keeps its children and gets a fresh operator
of the same arity. -/
def pointMutate (root : Expr) (p : Pool) (rng : Rng) : Expr × Rng :=
  let nodes := root.pathsPre
  if nodes.length = 0 then (root, rng)
  else
    let (idx, rng) := rng.intn nodes.length
    let path := nodes.getD idx []
    match root.getAt path with
    | some .var =>
        let (leaf, rng) := p.randomLeaf rng
        (root.setAt path leaf, rng)
    | some (.const _) =>
        let (leaf, rng) := p.randomLeaf rng
        (root.setAt path leaf, rng)
    | some (.unary _ c) =>
        let (op, rng) := p.randomUnary rng
        (root.setAt path (.unary op c), rng)
    | some (.binary _ l r) =>
        let (op, rng) := p.randomBinary rng
        (root.setAt path (.binary op l r), rng)
    | none => (root, rng)

/-- `maxMutationDepth = 4`. -/
def maxMutationDepth : ℕ := 4

/-- `subtreeMutate`: replace a uniformly random subtree by a fresh random
tree of bounded depth. -/
def subtreeMutate (root : Expr) (p : Pool) (rng : Rng) : Expr × Rng :=
  let nodes := root.pathsPre
  if nodes.length = 0 then randomTree p rng maxMutationDepth
  else
    let (idx, rng) := rng.intn nodes.length
    let path := nodes.getD idx []
    let (nt, rng) := randomTree p rng maxMutationDepth
    (root.setAt path nt, rng)

/-- `hoistMutate`: on a tree with more than one node, pick a uniformly
random node over the whole preorder list (the root included) and return a
deep clone of that subtree as the new tree; a single-node tree is returned
unchanged. -/
def hoistMutate (root : Expr) (rng : Rng) : Expr × Rng :=
  let nodes := root.subtrees
  if nodes.length ≤ 1 then (root, rng)
  else
    let (idx, rng) := rng.intn nodes.length
    ((nodes.getD idx .var).clone, rng)

/-- `constPerturb`: adjust a uniformly random constant by `±1..±3` (`int64`
addition, hence `wrap64`); a zero result is replaced by 1. -/
def constPerturb (root : Expr) (rng : Rng) : Expr × Rng :=
  let cs := root.constPaths
  if cs.length = 0 then (root, rng)
  else
    let (i, rng) := rng.intn cs.length
    let path := cs.getD i []
    let (d, rng) := rng.intn 3
    let (f, rng) := rng.float
    let delta : ℤ := if f < 1 / 2 then -((d : ℤ) + 1) else (d : ℤ) + 1
    match root.getAt path with
    | some (.const v) =>
        let nv := wrap64 (v + delta)
        (root.setAt path (.const (if nv = 0 then 1 else nv)), rng)
    | _ => (root, rng)

/-- `growMutate`: wrap a uniformly random node in a fresh unary node, or in
a fresh binary node with a random leaf on the other side. -/
def growMutate (root : Expr) (p : Pool) (rng : Rng) : Expr × Rng :=
  let nodes := root.pathsPre
  if nodes.length = 0 then (root, rng)
  else
    let (idx, rng) := rng.intn nodes.length
    let path := nodes.getD idx []
    match root.getAt path with
    | none => (root, rng)
    | some old =>
      let (f, rng) := rng.float
      if f < 1 / 2 then
        let (op, rng) := p.randomUnary rng
        (root.setAt path (.unary op old), rng)
      else
        let (f2, rng) := rng.float
        if f2 < 1 / 2 then
          let (op, rng) := p.randomBinary rng
          let (leaf, rng) := p.randomLeaf rng
          (root.setAt path (.binary op old leaf), rng)
        else
          let (op, rng) := p.randomBinary rng
          let (leaf, rng) := p.randomLeaf rng
          (root.setAt path (.binary op leaf old), rng)

/-- `shrinkMutate`: replace a uniformly random non-leaf node by one of its
children. -/
def shrinkMutate (root : Expr) (rng : Rng) : Expr × Rng :=
  let nodes := root.pathsPre
  if nodes.length = 0 then (root, rng)
  else
    let (idx, rng) := rng.intn nodes.length
    let path := nodes.getD idx []
    match root.getAt path with
    | some (.unary _ c) => (root.setAt path c, rng)
    | some (.binary _ l r) =>
        let (f, rng) := rng.float
        if f < 1 / 2 then (root.setAt path l, rng) else (root.setAt path r, rng)
    | _ => (root, rng)

/-- `mutateTree`: one of the six tree mutations, chosen uniformly. -/
def mutateTree (root : Expr) (p : Pool) (rng : Rng) : Expr × Rng :=
  let (m, rng) := rng.intn 6
  match m with
  | 0 => pointMutate root p rng
  | 1 => subtreeMutate root p rng
  | 2 => hoistMutate root rng
  | 3 => constPerturb root rng
  | 4 => growMutate root p rng
  | _ => shrinkMutate root rng

/-- `MutateCandidate`: flip the start index with probability 0.1, else
tree-mutate the numerator (0.45) or the denominator (0.45). -/
def MutateCandidate (p : Pool) (c : Candidate) (rng : Rng) : Candidate × Rng :=
  let (r, rng) := rng.float
  if r < 1 / 10 then ({ c with Start := 1 - c.Start }, rng)
  else if r < 11 / 20 then
    let (t, rng) := mutateTree c.Numerator p rng
    ({ c with Numerator := t }, rng)
  else
    let (t, rng) := mutateTree c.Denominator p rng
    ({ c with Denominator := t }, rng)

/-- `crossoverTrees`: pick a uniformly random node in each tree and exchange
the two subtrees. -/
def crossoverTrees (a b : Expr) (rng : Rng) : Expr × Expr × Rng :=
  let nodesA := a.pathsPre
  let nodesB := b.pathsPre
  if nodesA.length = 0 ∨ nodesB.length = 0 then (a, b, rng)
  else
    let (ia, rng) := rng.intn nodesA.length
    let (ib, rng) := rng.intn nodesB.length
    let pa := nodesA.getD ia []
    let pb := nodesB.getD ib []
    let sa := (a.getAt pa).getD a
    let sb := (b.getAt pb).getD b
    (a.setAt pa sb, b.setAt pb sa, rng)

/-- `CrossoverCandidates`: clone both parents, cross numerators, cross
denominators. -/
def CrossoverCandidates (a b : Candidate) (rng : Rng) : Candidate × Candidate × Rng :=
  let c1 := a.clone
  let c2 := b.clone
  let (n1, n2, rng) := crossoverTrees c1.Numerator c2.Numerator rng
  let (d1, d2, rng) := crossoverTrees c1.Denominator c2.Denominator rng
  (⟨n1, d1, c1.Start⟩, ⟨n2, d2, c2.Start⟩, rng)

/-- `toInt64Approx`: same conversion as `toInt64` (exact whole `int64`). -/
def toInt64Approx (q : ℚ) : Option ℤ := toInt64 q

/-- `roundToInt64`: round half away from zero via truncation of `q ± 0.5`,
rejecting zero and the saturated `int64` boundary values. -/
def roundToInt64 (q : ℚ) : Option ℤ :=
  let i : ℤ := if 0 ≤ q then ⌊q + 1 / 2⌋ else -⌊-q + 1 / 2⌋
  let isat : ℤ := max (-(2 ^ 63)) (min i (2 ^ 63 - 1))
  if isat = 0 then none
  else if isat = -(2 ^ 63) ∨ isat = 2 ^ 63 - 1 then none
  else some isat

/-- The per-node replacement step of `foldConstantSubtrees` on a
variable-free subtree: evaluate it (at `n = 0`), use the value if it is an
exact whole `int64`, else round it to the nearest nonzero integer. -/
def foldConstNode (F : FloatOps) (t : Expr) : Expr :=
  match t.eval F 0 with
  | some val =>
      match toInt64Approx val with
      | some iv => .const iv
      | none =>
          match roundToInt64 val with
          | some iv => .const iv
          | none => t
  | none => t

/-- `foldConstantSubtrees`: fold every maximal variable-free subtree. -/
def foldConstantSubtrees (F : FloatOps) : Expr → Expr
  | .unary op c =>
      if (Expr.unary op c).containsVar then .unary op (foldConstantSubtrees F c)
      else foldConstNode F (.unary op c)
  | .binary op l r =>
      if (Expr.binary op l r).containsVar then
        .binary op (foldConstantSubtrees F l) (foldConstantSubtrees F r)
      else foldConstNode F (.binary op l r)
  | t => if t.containsVar then t else foldConstNode F t

/-- `SimplifyBigFloat`: algebraic pass, constant-subtree folding, algebraic
pass again. -/
def SimplifyBigFloat (F : FloatOps) (t : Expr) : Expr :=
  Simplify (foldConstantSubtrees F (Simplify t))

end GeneticSeries

namespace GeneticSeries

/-- `hillclimbMaxDepth = 4`. -/
def hillclimbMaxDepth : ℕ := 4

/-- `tournamentMaxDepth = 4`. -/
def tournamentMaxDepth : ℕ := 4

/-- Per-individual step of the hill-climb strategy: clone, mutate, simplify
both trees, and replace by a fresh random candidate if the admission filter
rejects the result. -/
def hillclimbMutStep (F : FloatOps) (p : Pool) (c : Candidate) (rng : Rng) :
    Candidate × Rng :=
  let mc := MutateCandidate p c.clone rng
  let child : Candidate :=
    { mc.1 with
        Numerator := SimplifyBigFloat F mc.1.Numerator
        Denominator := SimplifyBigFloat F mc.1.Denominator }
  if candidateOK child then (child, mc.2) else randomCandidate p mc.2 hillclimbMaxDepth

/-- Map a stateful (`Rng`-threading) step over a list. -/
def mapWithRng (f : Candidate → Rng → Candidate × Rng) :
    List Candidate → Rng → List Candidate × Rng
  | [], rng => ([], rng)
  | x :: xs, rng =>
      let y := f x rng
      let ys := mapWithRng f xs y.2
      (y.1 :: ys.1, ys.2)

/-- `HillClimbStrategy.Evolve`: mutate every slot, inject fresh random
candidates over the worst 5 percent (at least one), then overwrite the slot
of the previous best with a clone of that best.  `sort.Slice` ordering is
modelled with a merge sort on the same key; which permutation the unstable
sort picks is irrelevant to the properties proved here. -/
def hillclimbEvolve (F : FloatOps) (p : Pool) (pop : List Candidate)
    (fits : List Fitness) (rng : Rng) : List Candidate × Rng :=
  let n := pop.length
  let nx := mapWithRng (hillclimbMutStep F p) pop rng
  let ranked := (List.range n).mergeSort
    (fun a b => decide ((fits.getD a default).Combined ≤ (fits.getD b default).Combined))
  let injectionCount := max (n * 5 / 100) 1
  let inject := ranked.take (min injectionCount n)
  let step := fun (acc : List Candidate × Rng) (idx : ℕ) =>
    let cr := randomCandidate p acc.2 hillclimbMaxDepth
    (acc.1.set idx cr.1, cr.2)
  let nr := inject.foldl step nx
  let bestIdx := ranked.getD (ranked.length - 1) 0
  (nr.1.set bestIdx ((pop.getD bestIdx default).clone), nr.2)

/-- `tournamentSelect`: draw `tournamentSize = 5` uniform indices, keep the
one with the highest combined fitness, return a clone of that candidate. -/
def tournamentSelect (pop : List Candidate) (fits : List Fitness) (rng : Rng) :
    Candidate × Rng :=
  let i0 := rng.intn pop.length
  let step := fun (acc : ℕ × ℚ × Rng) (_ : ℕ) =>
    let dr := acc.2.2.intn pop.length
    if acc.2.1 < (fits.getD dr.1 default).Combined then
      (dr.1, (fits.getD dr.1 default).Combined, dr.2)
    else (acc.1, acc.2.1, dr.2)
  let fin := (List.range 4).foldl step (i0.1, (fits.getD i0.1 default).Combined, i0.2)
  ((pop.getD fin.1 default).clone, fin.2.2)

/-- One crossover-and-mutate round of the tournament strategy, producing two
offspring (each mutated with probability 0.8 and simplified). -/
def tournamentOffspring (F : FloatOps) (p : Pool) (pop : List Candidate)
    (fits : List Fitness) (rng : Rng) : Candidate × Candidate × Rng :=
  let s1 := tournamentSelect pop fits rng
  let s2 := tournamentSelect pop fits s1.2
  let cr := CrossoverCandidates s1.1 s2.1 s2.2
  let f1 := cr.2.2.float
  let m1 := if f1.1 < 4 / 5 then MutateCandidate p cr.1 f1.2 else (cr.1, f1.2)
  let c1 : Candidate :=
    { m1.1 with
        Numerator := SimplifyBigFloat F m1.1.Numerator
        Denominator := SimplifyBigFloat F m1.1.Denominator }
  let f2 := m1.2.float
  let m2 := if f2.1 < 4 / 5 then MutateCandidate p cr.2.1 f2.2 else (cr.2.1, f2.2)
  let c2 : Candidate :=
    { m2.1 with
        Numerator := SimplifyBigFloat F m2.1.Numerator
        Denominator := SimplifyBigFloat F m2.1.Denominator }
  (c1, c2, m2.2)

/-- The `for len(next) < n` fill loop of `TournamentStrategy.Evolve`; each
offspring is admitted if `candidateOK`, else replaced by a fresh random
candidate.  Each round appends at least one candidate, so fuel `n` always
suffices. -/
def tournamentFill (F : FloatOps) (p : Pool) (pop : List Candidate)
    (fits : List Fitness) : ℕ → List Candidate → Rng → List Candidate × Rng
  | 0, next, rng => (next, rng)
  | fuel + 1, next, rng =>
      if pop.length ≤ next.length then (next, rng)
      else
        let off := tournamentOffspring F p pop fits rng
        let x1 :=
          if candidateOK off.1 then (off.1, off.2.2)
          else randomCandidate p off.2.2 tournamentMaxDepth
        let next1 := next ++ [x1.1]
        let st2 :=
          if next1.length < pop.length then
            let x2 :=
              if candidateOK off.2.1 then (off.2.1, x1.2)
              else randomCandidate p x1.2 tournamentMaxDepth
            (next1 ++ [x2.1], x2.2)
          else (next1, x1.2)
        tournamentFill F p pop fits fuel st2.1 st2.2

/-- `TournamentStrategy.Evolve`: clone the top 5 percent (at least one) as
elites, then fill the rest with admission-filtered tournament offspring. -/
def tournamentEvolve (F : FloatOps) (p : Pool) (pop : List Candidate)
    (fits : List Fitness) (rng : Rng) : List Candidate × Rng :=
  let n := pop.length
  let indices := (List.range n).mergeSort
    (fun a b => decide ((fits.getD b default).Combined ≤ (fits.getD a default).Combined))
  let eliteCount := max (n * 5 / 100) 1
  let elites := (indices.take eliteCount).map fun i => (pop.getD i default).clone
  let fin := tournamentFill F p pop fits n elites rng
  (fin.1.take n, fin.2)

end GeneticSeries

namespace GeneticSeries

lemma wrap64_eq_self {z : ℤ} (h : inInt64 z) : wrap64 z = z := by
  obtain ⟨h1, h2⟩ := h
  unfold wrap64
  rw [Int.emod_eq_of_lt (by omega) (by norm_num; omega)]
  omega

lemma wrap64_add_multiple (z k : ℤ) : wrap64 (z + 2 ^ 64 * k) = wrap64 z := by
  unfold wrap64
  rw [add_right_comm, Int.add_mul_emod_self_left]

lemma wrap64_sub (x : ℤ) : ∃ k : ℤ, wrap64 x = x + 2 ^ 64 * k := by
  refine ⟨-((x + 2 ^ 63) / 2 ^ 64), ?_⟩
  unfold wrap64
  rw [Int.emod_def]
  ring

lemma wrap64_mul_left (x y : ℤ) : wrap64 (wrap64 x * y) = wrap64 (x * y) := by
  obtain ⟨k, hk⟩ := wrap64_sub x
  rw [hk, add_mul, mul_assoc, wrap64_add_multiple]

lemma powWrap_eq (a : ℤ) : ∀ n : ℕ, powWrap a n = wrap64 (a ^ n) := by
  intro n
  induction n with
  | zero => simp [powWrap]; decide
  | succ m ih =>
      rw [powWrap, ih, wrap64_mul_left, pow_succ]

lemma tmod_eq_zero_iff_dvd (a b : ℤ) : a.tmod b = 0 ↔ b ∣ a :=
  Iff.symm Int.dvd_iff_tmod_eq_zero

end GeneticSeries

namespace GeneticSeries

lemma subtrees_length (t : Expr) : t.subtrees.length = t.nodeCount := by
  induction t with
  | var => rfl
  | const v => rfl
  | unary op c ih => simp [Expr.subtrees, Expr.nodeCount, ih, Nat.add_comm]
  | binary op l r ihl ihr =>
      simp [Expr.subtrees, Expr.nodeCount, ihl, ihr]; omega

lemma nodeCount_pos (t : Expr) : 0 < t.nodeCount := by
  cases t <;> simp [Expr.nodeCount]

lemma clone_eq (t : Expr) : t.clone = t := by
  induction t with
  | var => rfl
  | const v => rfl
  | unary op c ih => simp [Expr.clone, ih]
  | binary op l r ihl ihr => simp [Expr.clone, ihl, ihr]

lemma candClone_eq (c : Candidate) : c.clone = c := by
  simp [Candidate.clone, clone_eq]

lemma getD_mem {α : Type} (l : List α) (i : ℕ) (d : α) (h : i < l.length) :
    l.getD i d ∈ l := by
  rw [List.getD_eq_getElem?_getD, List.getElem?_eq_getElem h]
  exact List.getElem_mem h

/-- C10: for every base value `b`, including `b = 0`, the power `b^0`
evaluates successfully to exactly `1` on both precision paths (`bigPow` with
its integer-exponent `intPow` loop, and `powF64` with `intPowF64`): the
exponent converts to the integer `0`, and the empty exponentiation loop
returns `1`.  In particular `0^0` never produces an invalid flag at
evaluation time. -/
theorem bigPow_powF64_zero_exponent (F : FloatOps) (b : ℚ) :
    bigPow F b 0 = some 1 ∧ powF64 F b 0 = some 1 := by
  have h0 : ((0 : ℚ).den = 1 ∧ -2 ^ 63 ≤ (0 : ℚ).num ∧ (0 : ℚ).num < 2 ^ 63) := by
    refine ⟨rfl, by norm_num, by norm_num⟩
  have hb : binPowQ 1 b 0 = 1 := by rw [binPowQ]; simp
  constructor
  · simp only [bigPow, toInt64, if_pos h0]
    norm_num [intPow, hb]
  · simp only [powF64, toInt64F, if_pos h0]
    norm_num [intPowF64, hb]

/-- C8 counterexample: the claim says constant folding rejects overflow for
addition, but `foldConstants` folds `2^62 + 2^62` (both summands are valid
`int64` constants) to the wrapped value `-2^63`, which is not the exact
mathematical sum `2^63`. -/
theorem foldConstants_add_overflow_inexact :
    foldConstants .add (2 ^ 62) (2 ^ 62) = some (-(2 ^ 63)) ∧
      ((-(2 ^ 63) : ℤ) ≠ 2 ^ 62 + 2 ^ 62) := by
  constructor
  · show some (wrap64 (2 ^ 62 + 2 ^ 62)) = _
    norm_num [wrap64]
  · decide

/-- C8 (amended): whenever `foldConstants` returns a folded value, that
value is the exact mathematical result reduced by two's-complement `int64`
wrap-around (so it is the exact result whenever the exact result lies in the
`int64` range); the divide case folds only exact quotients.  Overflow is
rejected only by the multiplication check, not for add, subtract or power. -/
theorem foldConstants_wrap_characterization (op : BinaryOp) (a b v : ℤ)
    (h : foldConstants op a b = some v) :
    v = wrap64 (exactFold op a b) ∧
    (op = .div → b ≠ 0 ∧ b ∣ a) ∧
    (inInt64 (exactFold op a b) → v = exactFold op a b) := by
  have main : v = wrap64 (exactFold op a b) ∧ (op = .div → b ≠ 0 ∧ b ∣ a) := by
    cases op with
    | add =>
        simp only [foldConstants, Option.some.injEq] at h
        exact ⟨h.symm, by simp⟩
    | sub =>
        simp only [foldConstants, Option.some.injEq] at h
        exact ⟨h.symm, by simp⟩
    | mul =>
        simp only [foldConstants] at h
        split at h
        · split at h
          · exact absurd h (by simp)
          · simp only [Option.some.injEq] at h
            exact ⟨h.symm, by simp⟩
        · simp only [Option.some.injEq] at h
          rename_i hz
          have : a = 0 ∨ b = 0 := by
            by_contra hc
            push_neg at hc
            exact hz ⟨hc.1, hc.2⟩
          have hex : exactFold .mul a b = 0 := by
            simp only [exactFold]
            rcases this with h0 | h0 <;> simp [h0]
          rw [hex, ← h]
          exact ⟨by decide, by simp⟩
    | div =>
        simp only [foldConstants] at h
        split at h
        · exact absurd h (by simp)
        · split at h
          · exact absurd h (by simp)
          · simp only [Option.some.injEq] at h
            rename_i hb hm
            refine ⟨h.symm, fun _ => ⟨hb, ?_⟩⟩
            rw [← tmod_eq_zero_iff_dvd]
            simpa using hm
    | pow =>
        simp only [foldConstants] at h
        split at h
        · exact absurd h (by simp)
        · split at h
          · exact absurd h (by simp)
          · simp only [Option.some.injEq] at h
            rw [← h, powWrap_eq]
            exact ⟨rfl, by simp⟩
    | binomial => simp [foldConstants] at h
  exact ⟨main.1, main.2, fun hin => main.1.trans (wrap64_eq_self hin)⟩

/-- Witness for the amended C8 theorem at a concrete fold: `3 * 4` folds to
`12`, which is both the wrapped and the exact product. -/
theorem foldConstants_wrap_characterization_witness :
    (12 : ℤ) = wrap64 (exactFold .mul 3 4) ∧ (12 : ℤ) = exactFold .mul 3 4 := by
  have h := foldConstants_wrap_characterization .mul 3 4 12 (by decide)
  exact ⟨h.1, h.2.2 (by decide)⟩

/-- C9 counterexample: the claim says the hoisted node is never the root,
but on the two-node tree `neg(n)` with an rng whose next `Intn` draw is `0`,
`hoistMutate` selects preorder index 0 — the root — and returns (a clone of)
the whole tree, which is not among the proper subtrees. -/
theorem hoistMutate_can_pick_root :
    1 < (Expr.unary .neg .var).nodeCount ∧
    (hoistMutate (.unary .neg .var) ⟨fun _ => 0, fun _ => 0, 0, 0⟩).1 = .unary .neg .var ∧
    (hoistMutate (.unary .neg .var) ⟨fun _ => 0, fun _ => 0, 0, 0⟩).1 ∉
      (Expr.unary .neg .var).subtrees.tail := by
  refine ⟨by decide, by decide, by decide⟩

/-- C9 (amended): `hoistMutate` leaves a single-node tree unchanged; on a
larger tree it picks the preorder node indexed by the rng draw modulo the
full node count — the root included — and returns a deep clone of that
subtree, so the result is always one of the tree's subtrees (possibly the
whole tree). -/
theorem hoistMutate_clone_of_subtree (t : Expr) (rng : Rng) :
    (t.nodeCount ≤ 1 → hoistMutate t rng = (t, rng)) ∧
    (1 < t.nodeCount →
      (hoistMutate t rng).1 =
        (t.subtrees.getD (rng.ints rng.ipos % t.subtrees.length) .var).clone ∧
      (hoistMutate t rng).1 ∈ t.subtrees) := by
  constructor
  · intro h
    have hlen : t.subtrees.length ≤ 1 := by rw [subtrees_length]; exact h
    simp only [hoistMutate, if_pos hlen]
  · intro h
    have hlen : ¬ t.subtrees.length ≤ 1 := by rw [subtrees_length]; omega
    simp only [hoistMutate, if_neg hlen, Rng.intn]
    refine ⟨by trivial, ?_⟩
    rw [clone_eq]
    exact getD_mem _ _ _ (Nat.mod_lt _ (by omega))

/-- Witness for the amended C9 theorem: a single-node tree is returned
unchanged, and on a two-node tree the result is one of its subtrees. -/
theorem hoistMutate_clone_of_subtree_witness :
    hoistMutate .var ⟨fun _ => 0, fun _ => 0, 0, 0⟩ = (.var, ⟨fun _ => 0, fun _ => 0, 0, 0⟩) ∧
    (hoistMutate (.unary .abs .var) ⟨fun _ => 1, fun _ => 0, 0, 0⟩).1 ∈
      (Expr.unary .abs .var).subtrees :=
  ⟨(hoistMutate_clone_of_subtree _ _).1 (by decide),
   ((hoistMutate_clone_of_subtree _ _).2 (by decide)).2⟩

end GeneticSeries

namespace GeneticSeries

/-- C1: both fitness functions return the worst-fitness sentinel
(`combined = -10^9`) whenever any of the five degenerate conditions holds:
invalid evaluation, no variable in either tree, no variable in the
denominator, not converged, or a recorded partial sum further than `10^50`
from the target (relatively, or absolutely for target 0; the non-finite
disjunct of the claim cannot arise over exact rationals). -/
theorem computeFitness_worst_on_degenerate (F : FloatOps) (c : Candidate)
    (r : EvalResult) (r64 : EvalResultF64) (target targetF64 : ℚ)
    (w : FitnessWeights) :
    ((r.OK = false ∨
      (c.Numerator.containsVar = false ∧ c.Denominator.containsVar = false) ∨
      c.Denominator.containsVar = false ∨
      r.Converged = false ∨
      (∃ p, r.PartialSum = some p ∧ divergedChk p target = true)) →
      ComputeFitness F c r target w = WorstFitness) ∧
    ((r64.OK = false ∨
      (c.Numerator.containsVar = false ∧ c.Denominator.containsVar = false) ∨
      c.Denominator.containsVar = false ∨
      r64.Converged = false ∨
      divergedChk r64.PartialSum targetF64 = true) →
      ComputeFitnessF64 F c r64 targetF64 w = WorstFitness) := by
  constructor
  · intro h
    unfold ComputeFitness
    split_ifs with h1 h2 h3 h4 h5
    · rfl
    · rfl
    · rfl
    · rfl
    · rfl
    · exfalso
      simp only [Bool.not_eq_true'] at h1 h4
      simp only [Bool.and_eq_true, Bool.not_eq_true'] at h2
      rcases h with h | h | h | h | ⟨p, hp, hd⟩
      · exact absurd h1 (by simp [h])
      · exact h2 ⟨h.1, h.2⟩
      · simp only [Bool.not_eq_true'] at h3
        exact absurd h3 (by simp [h])
      · exact absurd h4 (by simp [h])
      · rw [hp] at h5
        exact absurd hd (by simpa using h5)
  · intro h
    unfold ComputeFitnessF64
    split_ifs with h1 h2 h3 h4 h5
    · rfl
    · rfl
    · rfl
    · rfl
    · rfl
    · exfalso
      simp only [Bool.not_eq_true'] at h1 h4
      simp only [Bool.and_eq_true, Bool.not_eq_true'] at h2
      rcases h with h | h | h | h | h
      · exact absurd h1 (by simp [h])
      · exact h2 ⟨h.1, h.2⟩
      · simp only [Bool.not_eq_true'] at h3
        exact absurd h3 (by simp [h])
      · exact absurd h4 (by simp [h])
      · exact absurd h (by simpa using h5)

/-- Witness for C1 at a concrete degenerate input (an invalid evaluation
result on each path). -/
theorem computeFitness_worst_on_degenerate_witness :
    ComputeFitness ⟨fun _ => 0, fun _ => 0, fun _ => 0, fun _ => 0,
        fun _ _ => 0, fun _ => 0⟩
      ⟨.var, .var, 0⟩ EvalResult.zero 0 ⟨10, 2, 1⟩ = WorstFitness ∧
    ComputeFitnessF64 ⟨fun _ => 0, fun _ => 0, fun _ => 0, fun _ => 0,
        fun _ _ => 0, fun _ => 0⟩
      ⟨.var, .var, 0⟩ EvalResultF64.zero 0 ⟨10, 2, 1⟩ = WorstFitness :=
  ⟨(computeFitness_worst_on_degenerate _ _ _ EvalResultF64.zero _ 0 _).1 (Or.inl rfl),
   (computeFitness_worst_on_degenerate _ _ EvalResult.zero _ 0 _ _).2 (Or.inl rfl)⟩

end GeneticSeries

namespace GeneticSeries

/-- Modelled from the spec: correct digits `D = max(0, -log10(|p - t| / |t|))`,
with the absolute-error variant when the target is zero (the `log10` being
the platform logarithm, `F.log10`). -/
def specCorrectDigits (F : FloatOps) (p t : ℚ) : ℚ :=
  if t = 0 then max 0 (-F.log10 |p - t|) else max 0 (-F.log10 (|p - t| / |t|))

/-- A concrete `FloatOps` whose `log10` returns `-60` at `10^-60` — the
value the correctly rounded `math.Log10` produces there — and `0`
elsewhere; the other operations are irrelevant constants. -/
def cexOps : FloatOps :=
  ⟨fun _ => 0, fun _ => 0, fun _ => 0, fun _ => 0, fun _ _ => 0,
   fun q => if q = 1 / 10 ^ 60 then -60 else 0⟩

/-- C3 counterexample: the claim caps the precise-path digit count at 50,
but `countCorrectDigits` applies no such cap outside the exact-match branch:
with relative error `10^-60` (computed `1 + 10^-60` against target `1`) it
returns `60 > 50 = MaxDigits`. -/
theorem countCorrectDigits_exceeds_cap :
    MaxDigits < countCorrectDigits cexOps (some (1 + 1 / 10 ^ 60)) (some 1) := by
  norm_num [countCorrectDigits, cexOps, MaxDigits]

/-- C3 (amended): for distinct computed and target values the precise-path
count equals the spec formula `max(0, -log10(relative error))` (absolute
error for target 0) with no upper cap, and the fast-path count equals the
same formula clamped to 15; the exact-match case returns the 50 (resp. 15)
constant; the fast-path count never exceeds 15.  The precise-path count is
not capped at 50. -/
theorem countCorrectDigits_formula (F : FloatOps) (p t : ℚ) :
    (p ≠ t → countCorrectDigits F (some p) (some t) = specCorrectDigits F p t) ∧
    (p = t → countCorrectDigits F (some p) (some t) = MaxDigits) ∧
    (p ≠ t → countCorrectDigitsF64 F p t = min (specCorrectDigits F p t) maxDigitsF64) ∧
    countCorrectDigitsF64 F p t ≤ maxDigitsF64 := by
  have habs : (|p - t| = 0) ↔ p = t := by rw [abs_eq_zero, sub_eq_zero]
  have habt : (|t| = 0) ↔ t = 0 := abs_eq_zero
  have hclamp : ∀ a : ℚ, max 0 (min a maxDigitsF64) = min (max 0 a) maxDigitsF64 := by
    intro a
    rw [max_min_distrib_left]
    norm_num [maxDigitsF64]
  refine ⟨?_, ?_, ?_, ?_⟩
  · intro hne
    have hd : ¬ |p - t| = 0 := fun h => hne (habs.mp h)
    by_cases ht : t = 0
    · have h2 : |t| = 0 := by rw [ht, abs_zero]
      simp only [countCorrectDigits, specCorrectDigits, if_neg hd, if_pos h2, if_pos ht]
    · have h2 : ¬ |t| = 0 := fun h => ht (habt.mp h)
      have hrel : ¬ |p - t| / |t| = 0 := by
        intro h
        rcases div_eq_zero_iff.mp h with h | h
        · exact hd h
        · exact h2 h
      simp only [countCorrectDigits, specCorrectDigits, if_neg hd, if_neg h2,
        if_neg hrel, if_neg ht]
  · intro he
    simp only [countCorrectDigits, if_pos (habs.mpr he)]
  · intro hne
    have hd : ¬ |p - t| = 0 := fun h => hne (habs.mp h)
    by_cases ht : t = 0
    · have h2 : |t| = 0 := by rw [ht, abs_zero]
      simp only [countCorrectDigitsF64, specCorrectDigits, if_neg hd, if_pos h2, if_pos ht]
      exact hclamp _
    · have h2 : ¬ |t| = 0 := fun h => ht (habt.mp h)
      have hrel : ¬ |p - t| / |t| = 0 := by
        intro h
        rcases div_eq_zero_iff.mp h with h | h
        · exact hd h
        · exact h2 h
      simp only [countCorrectDigitsF64, specCorrectDigits, if_neg hd, if_neg h2,
        if_neg hrel, if_neg ht]
      exact hclamp _
  · simp only [countCorrectDigitsF64]
    split_ifs
    · norm_num [maxDigitsF64]
    · exact max_le (by norm_num [maxDigitsF64]) (min_le_right _ _)
    · norm_num [maxDigitsF64]
    · exact max_le (by norm_num [maxDigitsF64]) (min_le_right _ _)

/-- Witness for the amended C3 theorem at concrete inputs. -/
theorem countCorrectDigits_formula_witness :
    countCorrectDigits cexOps (some 2) (some 1) = specCorrectDigits cexOps 2 1 ∧
    countCorrectDigits cexOps (some 3) (some 3) = MaxDigits ∧
    countCorrectDigitsF64 cexOps 2 1 = min (specCorrectDigits cexOps 2 1) maxDigitsF64 :=
  ⟨(countCorrectDigits_formula cexOps 2 1).1 (by norm_num),
   (countCorrectDigits_formula cexOps 3 3).2.1 rfl,
   (countCorrectDigits_formula cexOps 2 1).2.2.1 (by norm_num)⟩

end GeneticSeries

namespace GeneticSeries

/-- The difference sequence `d_k = |s_{k+1} - s_k|` of a checkpoint list. -/
def diffsOf (cps : List ℚ) : List ℚ :=
  (cps.zip cps.tail).map fun pr => |pr.2 - pr.1|

/-- The ratios contributed by a list of adjacent difference pairs: pairs
with zero first entry contribute nothing. -/
def ratList (l : List (ℚ × ℚ)) : List ℚ :=
  l.filterMap fun pr => if pr.1 = 0 then none else some (pr.2 / pr.1)

/-- Modelled from the spec: the defined ratios `r_k = d_k / d_{k-1}`, taken
over consecutive difference pairs whose first entry is nonzero. -/
def definedRatios (diffs : List ℚ) : List ℚ :=
  ratList (diffs.zip diffs.tail)

lemma ratioFold_spec (l : List (ℚ × ℚ)) : ∀ acc : ℚ × ℕ × Bool,
    l.foldl ratioFold acc =
      (acc.1 + (ratList l).sum, acc.2.1 + (ratList l).length,
        acc.2.2 && decide (∀ x ∈ ratList l, x < 1)) := by
  induction l with
  | nil => intro acc; simp [ratList]
  | cons p l ih =>
      intro acc
      by_cases hp : p.1 = 0
      · rw [List.foldl_cons]
        have hstep : ratioFold acc p = acc := by simp [ratioFold, hp]
        rw [hstep, ih, show ratList (p :: l) = ratList l from by simp [ratList, hp]]
      · rw [List.foldl_cons]
        have hstep : ratioFold acc p =
            (acc.1 + p.2 / p.1, acc.2.1 + 1, acc.2.2 && decide (p.2 / p.1 < 1)) := by
          simp [ratioFold, hp]
        rw [hstep, ih]
        have hrl : ratList (p :: l) = p.2 / p.1 :: ratList l := by
          simp [ratList, hp]
        rw [hrl]
        refine Prod.ext ?_ (Prod.ext ?_ ?_)
        · simp; ring
        · simp; omega
        · simp only [List.forall_mem_cons, Bool.decide_and, Bool.and_assoc]

/-- C2: on at least three checkpoints, the precise-path convergence analysis
reports converged iff every defined difference ratio is `< 1` and the mean
of the defined ratios is `< 0.99`; when no ratio is defined it reports
converged with ratio `1.0`; with fewer than three checkpoints it reports not
converged (with rate `0`). -/
theorem analyzeConvergence_spec (cps : List ℚ) :
    (cps.length < 3 → analyzeConvergence cps = (false, 0)) ∧
    (3 ≤ cps.length →
      (definedRatios (diffsOf cps) = [] → analyzeConvergence cps = (true, 1)) ∧
      (definedRatios (diffsOf cps) ≠ [] →
        ((analyzeConvergence cps).1 = true ↔
          ((∀ x ∈ definedRatios (diffsOf cps), x < 1) ∧
            (definedRatios (diffsOf cps)).sum /
              ((definedRatios (diffsOf cps)).length : ℚ) < 99 / 100)))) := by
  constructor
  · intro h
    unfold analyzeConvergence
    rw [if_pos h]
  · intro h
    have hlen : ¬ cps.length < 3 := by omega
    have htail : cps.tail.length = cps.length - 1 := List.length_tail cps
    have hdl : ((cps.zip cps.tail).map fun pr => |pr.2 - pr.1|).length = cps.length - 1 := by
      rw [List.length_map, List.length_zip, htail]
      omega
    have hd2 : ¬ ((cps.zip cps.tail).map fun pr => |pr.2 - pr.1|).length < 2 := by
      rw [hdl]; omega
    have hfold := ratioFold_spec
      ((((cps.zip cps.tail).map fun pr => |pr.2 - pr.1|).zip
        ((cps.zip cps.tail).map fun pr => |pr.2 - pr.1|).tail)) (0, 0, true)
    simp only [analyzeConvergence, if_neg hlen, if_neg hd2, hfold, zero_add, Bool.true_and]
    have hratdef : ratList ((((cps.zip cps.tail).map fun pr => |pr.2 - pr.1|).zip
        ((cps.zip cps.tail).map fun pr => |pr.2 - pr.1|).tail)) =
        definedRatios (diffsOf cps) := rfl
    rw [hratdef]
    constructor
    · intro hnil
      rw [hnil]
      simp
    · intro hne
      have hne0 : ¬ (definedRatios (diffsOf cps)).length = 0 := by
        simpa [List.length_eq_zero] using hne
      rw [if_neg hne0]
      simp only [Bool.and_eq_true, decide_eq_true_eq]

/-- Witness for C2: a two-checkpoint list is not converged, and on the
three-checkpoint list `[0, 1, 3/2]` (one defined ratio, `1/2`) the iff
characterization is instantiated. -/
theorem analyzeConvergence_spec_witness :
    analyzeConvergence [0, 1] = (false, 0) ∧
    ((analyzeConvergence [0, 1, 3 / 2]).1 = true ↔
      ((∀ x ∈ definedRatios (diffsOf [0, 1, 3 / 2]), x < 1) ∧
        (definedRatios (diffsOf [0, 1, 3 / 2])).sum /
          ((definedRatios (diffsOf [0, 1, 3 / 2])).length : ℚ) < 99 / 100)) :=
  ⟨(analyzeConvergence_spec [0, 1]).1 (by norm_num),
   ((analyzeConvergence_spec [0, 1, 3 / 2]).2 (by norm_num)).2
     (by simp [definedRatios, diffsOf, ratList])⟩

end GeneticSeries

namespace GeneticSeries

/-- Modelled from the spec: a term index at which both trees evaluate
validly and the denominator is nonzero (fast path). -/
def termOKF64 (F : FloatOps) (c : Candidate) (i : ℤ) : Bool :=
  match c.Numerator.evalF64 F i, c.Denominator.evalF64 F i with
  | some _, some d => decide (d ≠ 0)
  | _, _ => false

/-- The value `num/den` of a (valid) term (fast path). -/
def termValF64 (F : FloatOps) (c : Candidate) (i : ℤ) : ℚ :=
  match c.Numerator.evalF64 F i, c.Denominator.evalF64 F i with
  | some n, some d => n / d
  | _, _ => 0

/-- Modelled from the spec: a valid term on the big-float path. -/
def termOKBig (F : FloatOps) (c : Candidate) (i : ℤ) : Bool :=
  match c.Numerator.eval F i, c.Denominator.eval F i with
  | some _, some d => decide (d ≠ 0)
  | _, _ => false

/-- The value `num/den` of a (valid) term (big path). -/
def termValBig (F : FloatOps) (c : Candidate) (i : ℤ) : ℚ :=
  match c.Numerator.eval F i, c.Denominator.eval F i with
  | some n, some d => n / d
  | _, _ => 0

/-- Modelled from the spec: the number of terms completed before the first
failing term (or the whole budget), counting from index `i`. -/
def completedFrom (f : ℤ → Bool) (i : ℤ) (m : ℕ) : ℕ :=
  ((List.range m).takeWhile fun j : ℕ => f (i + (j : ℤ))).length

/-- Modelled from the spec: the partial sum of the first `k` terms from
index `i`. -/
def partialFrom (g : ℤ → ℚ) (i : ℤ) (k : ℕ) : ℚ :=
  ((List.range k).map fun j : ℕ => g (i + (j : ℤ))).sum

lemma completedFrom_succ_pos (f : ℤ → Bool) (i : ℤ) (m : ℕ) (h : f i = true) :
    completedFrom f i (m + 1) = 1 + completedFrom f (i + 1) m := by
  unfold completedFrom
  rw [List.range_succ_eq_map, List.takeWhile_cons]
  have h0 : f (i + ((0 : ℕ) : ℤ)) = true := by simpa using h
  rw [if_pos h0, List.takeWhile_map]
  have hfun : ((fun j : ℕ => f (i + (j : ℤ))) ∘ Nat.succ) = fun j : ℕ => f ((i + 1) + (j : ℤ)) := by
    funext j
    simp only [Function.comp]
    congr 1
    push_cast
    ring
  rw [hfun]
  simp [Nat.add_comm]

lemma completedFrom_succ_neg (f : ℤ → Bool) (i : ℤ) (m : ℕ) (h : f i = false) :
    completedFrom f i (m + 1) = 0 := by
  unfold completedFrom
  rw [List.range_succ_eq_map, List.takeWhile_cons]
  have h0 : ¬ (f (i + ((0 : ℕ) : ℤ)) = true) := by simp [h]
  rw [if_neg h0]
  rfl

lemma partialFrom_succ (g : ℤ → ℚ) (i : ℤ) (k : ℕ) :
    partialFrom g i (k + 1) = g i + partialFrom g (i + 1) k := by
  unfold partialFrom
  rw [List.range_succ_eq_map, List.map_cons, List.sum_cons, List.map_map]
  have hfun : ((fun j : ℕ => g (i + (j : ℤ))) ∘ Nat.succ) = fun j : ℕ => g ((i + 1) + (j : ℤ)) := by
    funext j
    simp only [Function.comp]
    congr 1
    push_cast
    ring
  rw [hfun]
  simp

lemma completedFrom_zero (f : ℤ → Bool) (i : ℤ) : completedFrom f i 0 = 0 := rfl

lemma partialFrom_zero (g : ℤ → ℚ) (i : ℤ) : partialFrom g i 0 = 0 := rfl

lemma takeWhile_range_length : ∀ (M : ℕ) (f : ℕ → Bool) (j : ℕ), j < M →
    (∀ k, k < j → f k = true) → f j = false →
    ((List.range M).takeWhile f).length = j := by
  intro M
  induction M with
  | zero => omega
  | succ M ih =>
      intro f j hj h1 h2
      rw [List.range_succ_eq_map, List.takeWhile_cons]
      cases j with
      | zero =>
          rw [if_neg (by simp [h2])]
          rfl
      | succ j =>
          rw [if_pos (h1 0 (Nat.succ_pos j)), List.takeWhile_map]
          simp only [List.length_cons, List.length_map]
          rw [ih (f ∘ Nat.succ) j (by omega) (fun k hk => h1 (k + 1) (by omega)) (by simpa using h2)]

lemma partialFrom_one_add (g : ℤ → ℚ) (i : ℤ) (k : ℕ) :
    partialFrom g i (1 + k) = g i + partialFrom g (i + 1) k := by
  rw [Nat.add_comm]
  exact partialFrom_succ g i k

lemma writeRing_fields (st : FastLoopState) (v : ℚ) :
    (st.writeRing v).sum = st.sum ∧ (st.writeRing v).termsComputed = st.termsComputed := by
  unfold FastLoopState.writeRing
  split_ifs <;> exact ⟨rfl, rfl⟩

lemma fastLoop_spec (F : FloatOps) (c : Candidate) : ∀ (m : ℕ) (i : ℤ) (st : FastLoopState),
    (fastLoop F c m i st).termsComputed =
      st.termsComputed + completedFrom (termOKF64 F c) i m ∧
    (fastLoop F c m i st).sum =
      st.sum + partialFrom (termValF64 F c) i (completedFrom (termOKF64 F c) i m) := by
  intro m
  induction m with
  | zero =>
      intro i st
      simp [fastLoop, completedFrom_zero, partialFrom_zero]
  | succ m ih =>
      intro i st
      cases hn : c.Numerator.evalF64 F i with
      | none =>
          have hok : termOKF64 F c i = false := by simp [termOKF64, hn]
          rw [completedFrom_succ_neg _ _ _ hok]
          simp only [fastLoop, hn]
          simp [partialFrom_zero]
      | some num =>
          cases hd : c.Denominator.evalF64 F i with
          | none =>
              have hok : termOKF64 F c i = false := by simp [termOKF64, hn, hd]
              rw [completedFrom_succ_neg _ _ _ hok]
              simp only [fastLoop, hn, hd]
              simp [partialFrom_zero]
          | some den =>
              by_cases hz : den = 0
              · have hok : termOKF64 F c i = false := by
                  simp [termOKF64, hn, hd, hz]
                rw [completedFrom_succ_neg _ _ _ hok]
                simp only [fastLoop, hn, hd, if_pos hz]
                simp [partialFrom_zero]
              · have hok : termOKF64 F c i = true := by
                  simp [termOKF64, hn, hd, hz]
                have hval : termValF64 F c i = num / den := by
                  simp [termValF64, hn, hd]
                rw [completedFrom_succ_pos _ _ _ hok, partialFrom_one_add, hval]
                simp only [fastLoop, hn, hd, if_neg hz]
                constructor
                · rw [(ih (i + 1) _).1]
                  have h2 : ∀ s2 : FastLoopState,
                      (if i - c.Start + 1 = st.nextCheckpoint then
                        { s2.writeRing (st.sum + num / den) with
                            cpIdx := st.cpIdx + 1
                            cpCount := st.cpCount + 1
                            nextCheckpoint := st.nextCheckpoint * 2 }
                      else s2).termsComputed = s2.termsComputed := by
                    intro s2
                    split_ifs
                    · exact (writeRing_fields s2 _).2
                    · rfl
                  rw [h2]
                  simp only []
                  omega
                · rw [(ih (i + 1) _).2]
                  have h2 : ∀ s2 : FastLoopState,
                      (if i - c.Start + 1 = st.nextCheckpoint then
                        { s2.writeRing (st.sum + num / den) with
                            cpIdx := st.cpIdx + 1
                            cpCount := st.cpCount + 1
                            nextCheckpoint := st.nextCheckpoint * 2 }
                      else s2).sum = s2.sum := by
                    intro s2
                    split_ifs
                    · exact (writeRing_fields s2 _).1
                    · rfl
                  rw [h2]
                  simp only []
                  ring

lemma bigLoop_spec (F : FloatOps) (c : Candidate) : ∀ (m : ℕ) (i : ℤ) (st : BigLoopState),
    (bigLoop F c m i st).termsComputed =
      st.termsComputed + completedFrom (termOKBig F c) i m ∧
    (bigLoop F c m i st).sum =
      st.sum + partialFrom (termValBig F c) i (completedFrom (termOKBig F c) i m) := by
  intro m
  induction m with
  | zero =>
      intro i st
      simp [bigLoop, completedFrom_zero, partialFrom_zero]
  | succ m ih =>
      intro i st
      cases hn : c.Numerator.eval F i with
      | none =>
          have hok : termOKBig F c i = false := by simp [termOKBig, hn]
          rw [completedFrom_succ_neg _ _ _ hok]
          simp only [bigLoop, hn]
          simp [partialFrom_zero]
      | some num =>
          cases hd : c.Denominator.eval F i with
          | none =>
              have hok : termOKBig F c i = false := by simp [termOKBig, hn, hd]
              rw [completedFrom_succ_neg _ _ _ hok]
              simp only [bigLoop, hn, hd]
              simp [partialFrom_zero]
          | some den =>
              by_cases hz : den = 0
              · have hok : termOKBig F c i = false := by
                  simp [termOKBig, hn, hd, hz]
                rw [completedFrom_succ_neg _ _ _ hok]
                simp only [bigLoop, hn, hd, if_pos hz]
                simp [partialFrom_zero]
              · have hok : termOKBig F c i = true := by
                  simp [termOKBig, hn, hd, hz]
                have hval : termValBig F c i = num / den := by
                  simp [termValBig, hn, hd]
                rw [completedFrom_succ_pos _ _ _ hok, partialFrom_one_add, hval]
                simp only [bigLoop, hn, hd, if_neg hz]
                constructor
                · rw [(ih (i + 1) _).1]
                  have h2 : ∀ a b : BigLoopState, a.termsComputed = b.termsComputed →
                      (if i - c.Start + 1 = st.nextCheckpoint then a else b).termsComputed =
                        b.termsComputed := by
                    intro a b hab
                    split_ifs <;> simp [hab]
                  split_ifs
                  · simp only []
                    omega
                  · simp only []
                    omega
                · rw [(ih (i + 1) _).2]
                  split_ifs
                  · simp only []
                    ring
                  · simp only []
                    ring

/-- C5: for both evaluation paths (the fast path, and the big path in
no-timeout executions), a term whose numerator or denominator evaluates
invalid or whose denominator is zero stops the accumulation at exactly that
term: the evaluation completes the maximal valid prefix of the budget, and
it reports `OK = true` — with the partial sum and term count of that prefix
— if and only if at least 4 terms completed. -/
theorem evaluateCandidate_stop_semantics (F : FloatOps) (c : Candidate) (M : ℕ) :
    ((EvaluateCandidateF64 F c M).OK = true ↔
      4 ≤ completedFrom (termOKF64 F c) c.Start M) ∧
    ((EvaluateCandidateF64 F c M).OK = true →
      (EvaluateCandidateF64 F c M).PartialSum =
        partialFrom (termValF64 F c) c.Start (completedFrom (termOKF64 F c) c.Start M) ∧
      (EvaluateCandidateF64 F c M).TermsComputed =
        completedFrom (termOKF64 F c) c.Start M) ∧
    (∀ j : ℕ, j < M → (∀ k : ℕ, k < j → termOKF64 F c (c.Start + k) = true) →
      termOKF64 F c (c.Start + j) = false →
      completedFrom (termOKF64 F c) c.Start M = j) ∧
    ((EvaluateCandidate F c M).OK = true ↔
      4 ≤ completedFrom (termOKBig F c) c.Start M) ∧
    ((EvaluateCandidate F c M).OK = true →
      (EvaluateCandidate F c M).PartialSum =
        some (partialFrom (termValBig F c) c.Start (completedFrom (termOKBig F c) c.Start M)) ∧
      (EvaluateCandidate F c M).TermsComputed =
        completedFrom (termOKBig F c) c.Start M) := by
  have hf := fastLoop_spec F c M c.Start ⟨0, 0, 0, 0, 0, 0, 1, 0⟩
  have hb := bigLoop_spec F c M c.Start ⟨0, [], 1, 0⟩
  have hkF : (fastLoop F c M c.Start ⟨0, 0, 0, 0, 0, 0, 1, 0⟩).termsComputed =
      completedFrom (termOKF64 F c) c.Start M := by simpa using hf.1
  have hsF : (fastLoop F c M c.Start ⟨0, 0, 0, 0, 0, 0, 1, 0⟩).sum =
      partialFrom (termValF64 F c) c.Start (completedFrom (termOKF64 F c) c.Start M) := by
    simpa using hf.2
  have hkB : (bigLoop F c M c.Start ⟨0, [], 1, 0⟩).termsComputed =
      completedFrom (termOKBig F c) c.Start M := by simpa using hb.1
  have hsB : (bigLoop F c M c.Start ⟨0, [], 1, 0⟩).sum =
      partialFrom (termValBig F c) c.Start (completedFrom (termOKBig F c) c.Start M) := by
    simpa using hb.2
  refine ⟨?_, ?_, ?_, ?_, ?_⟩
  · simp only [EvaluateCandidateF64, hkF]
    split_ifs with h
    · constructor
      · intro hx
        exact absurd hx (by simp [EvalResultF64.zero])
      · intro hx
        omega
    · simp only []
      constructor
      · intro _
        omega
      · intro _
        trivial
  · simp only [EvaluateCandidateF64, hkF]
    split_ifs with h
    · intro hx
      exact absurd hx (by simp [EvalResultF64.zero])
    · intro _
      exact ⟨hsF, rfl⟩
  · intro j hj h1 h2
    exact takeWhile_range_length M _ j hj h1 h2
  · simp only [EvaluateCandidate, hkB]
    split_ifs with h
    · constructor
      · intro hx
        exact absurd hx (by simp [EvalResult.zero])
      · intro hx
        omega
    · simp only []
      constructor
      · intro _
        omega
      · intro _
        trivial
  · simp only [EvaluateCandidate, hkB]
    split_ifs with h
    · intro hx
      exact absurd hx (by simp [EvalResult.zero])
    · intro _
      exact ⟨by rw [hsB], rfl⟩

/-- Witness for C5: the series `1/n!` from 0 with budget 5 completes all 5
terms and reports its prefix sum; a literal zero denominator fails at the
very first term, so the completed count is 0. -/
theorem evaluateCandidate_stop_semantics_witness :
    (EvaluateCandidateF64 cexOps ⟨.const 1, .unary .factorial .var, 0⟩ 5).PartialSum =
      partialFrom (termValF64 cexOps ⟨.const 1, .unary .factorial .var, 0⟩) 0
        (completedFrom (termOKF64 cexOps ⟨.const 1, .unary .factorial .var, 0⟩) 0 5) ∧
    completedFrom (termOKF64 cexOps ⟨.const 1, .const 0, 0⟩) 0 5 = 0 :=
  ⟨((evaluateCandidate_stop_semantics cexOps ⟨.const 1, .unary .factorial .var, 0⟩ 5).2.1
      (by decide)).1,
   (evaluateCandidate_stop_semantics cexOps ⟨.const 1, .const 0, 0⟩ 5).2.2.1 0
      (by omega) (by omega) (by decide)⟩

end GeneticSeries

namespace GeneticSeries

/-- The precise-path fitness/result pair that `evaluateBigFloat` writes for
one candidate. -/
def preciseEntry (F : FloatOps) (cfg : EngineCfg) (target : ℚ) (c : Candidate) :
    Fitness × EvalResult :=
  (ComputeFitness F c (EvaluateCandidate F c cfg.MaxTerms) target cfg.Weights,
   EvaluateCandidate F c cfg.MaxTerms)

/-- The fast-path fitness that phase 1 computes for one candidate. -/
def fastFitness (F : FloatOps) (cfg : EngineCfg) (targetF64 : ℚ) (c : Candidate) : Fitness :=
  ComputeFitnessF64 F c (EvaluateCandidateF64 F c cfg.MaxTerms) targetF64 cfg.Weights

lemma evaluateBigFloat_getElem_none (F : FloatOps) (cfg : EngineCfg) (target : ℚ)
    (tabu : List String) (pop : List Candidate) (init : List (Fitness × EvalResult))
    (i : ℕ) (hi : i < pop.length) :
    (evaluateBigFloat F cfg target tabu pop init none)[i]? =
      some (if (pop.getD i default).string ∈ tabu
        then (WorstFitness, (init.getD i (default, EvalResult.zero)).2)
        else (ComputeFitness F (pop.getD i default)
            (EvaluateCandidate F (pop.getD i default) cfg.MaxTerms) target cfg.Weights,
          EvaluateCandidate F (pop.getD i default) cfg.MaxTerms)) := by
  unfold evaluateBigFloat
  rw [List.getElem?_map, List.getElem?_range hi]
  rfl

lemma evaluateBigFloat_getElem_some (F : FloatOps) (cfg : EngineCfg) (target : ℚ)
    (tabu : List String) (pop : List Candidate) (init : List (Fitness × EvalResult))
    (pr : List Bool) (i : ℕ) (hi : i < pop.length) :
    (evaluateBigFloat F cfg target tabu pop init (some pr))[i]? =
      some (if pr.getD i false = true then
        (if (pop.getD i default).string ∈ tabu
          then (WorstFitness, (init.getD i (default, EvalResult.zero)).2)
          else (ComputeFitness F (pop.getD i default)
              (EvaluateCandidate F (pop.getD i default) cfg.MaxTerms) target cfg.Weights,
            EvaluateCandidate F (pop.getD i default) cfg.MaxTerms))
        else init.getD i (default, EvalResult.zero)) := by
  unfold evaluateBigFloat
  rw [List.getElem?_map, List.getElem?_range hi]
  rfl

/-- C4: per-index behavior of the engine's evaluation step.  A tabu
candidate receives `WorstFitness` with an untouched (zero) result and is
evaluated in neither phase.  With a positive promotion threshold, a non-tabu
candidate is evaluated in the fast path; exactly when its fast digit count
reaches the threshold it is re-evaluated at the precise path, overwriting
its fitness and result, and otherwise it keeps its fast fitness (and zero
result).  With threshold 0 the fast phase is skipped and every non-tabu
candidate takes the precise path. -/
theorem evaluatePopulation_two_phase (F : FloatOps) (cfg : EngineCfg)
    (target targetF64 : ℚ) (tabu : List String) (pop : List Candidate) (i : ℕ)
    (hi : i < pop.length) :
    ((pop.getD i default).string ∈ tabu →
      (evaluatePopulation F cfg target targetF64 tabu pop)[i]? =
        some (WorstFitness, EvalResult.zero)) ∧
    ((pop.getD i default).string ∉ tabu → 0 < cfg.F64PromotionThreshold →
      (cfg.F64PromotionThreshold ≤
          (fastFitness F cfg targetF64 (pop.getD i default)).CorrectDigits →
        (evaluatePopulation F cfg target targetF64 tabu pop)[i]? =
          some (preciseEntry F cfg target (pop.getD i default))) ∧
      ((fastFitness F cfg targetF64 (pop.getD i default)).CorrectDigits <
          cfg.F64PromotionThreshold →
        (evaluatePopulation F cfg target targetF64 tabu pop)[i]? =
          some (fastFitness F cfg targetF64 (pop.getD i default), EvalResult.zero))) ∧
    ((pop.getD i default).string ∉ tabu → cfg.F64PromotionThreshold = 0 →
      (evaluatePopulation F cfg target targetF64 tabu pop)[i]? =
        some (preciseEntry F cfg target (pop.getD i default))) := by
  by_cases hT : cfg.F64PromotionThreshold ≤ 0
  · have hout := evaluateBigFloat_getElem_none F cfg target tabu pop
      (pop.map fun _ => (default, EvalResult.zero)) i hi
    have hinit : (pop.map fun _ => ((default : Fitness), EvalResult.zero)).getD i
        (default, EvalResult.zero) = (default, EvalResult.zero) := by
      rw [List.getD_eq_getElem?_getD, List.getElem?_map, List.getElem?_eq_getElem hi]
      rfl
    rw [hinit] at hout
    simp only [evaluatePopulation, if_pos hT]
    refine ⟨?_, ?_, ?_⟩
    · intro htab
      rw [hout, if_pos htab]
    · intro _ hpos
      exact absurd hpos (by simp only [not_lt]; exact hT)
    · intro htab _
      rw [hout, if_neg htab]
      rfl
  · set ph := evaluateFastPhase F cfg targetF64 tabu pop with hphdef
    set entry := (if (pop.getD i default).string ∈ tabu then (WorstFitness, false)
      else (fastFitness F cfg targetF64 (pop.getD i default),
        decide (cfg.F64PromotionThreshold ≤
          (fastFitness F cfg targetF64 (pop.getD i default)).CorrectDigits)))
      with hentry
    have hph : ph[i]? = some entry := by
      rw [hphdef, hentry]
      unfold evaluateFastPhase
      rw [List.getElem?_map, List.getElem?_eq_getElem hi]
      rw [List.getD_eq_getElem?_getD, List.getElem?_eq_getElem hi]
      rfl
    have hout := evaluateBigFloat_getElem_some F cfg target tabu pop
      (ph.map fun q => (q.1, EvalResult.zero)) (ph.map Prod.snd) i hi
    have hinit : (ph.map fun q => (q.1, EvalResult.zero)).getD i
        (default, EvalResult.zero) = (entry.1, EvalResult.zero) := by
      rw [List.getD_eq_getElem?_getD, List.getElem?_map, hph]
      rfl
    have hsel : (ph.map Prod.snd).getD i false = entry.2 := by
      rw [List.getD_eq_getElem?_getD, List.getElem?_map, hph]
      rfl
    rw [hinit, hsel] at hout
    simp only [evaluatePopulation, if_neg hT]
    rw [← hphdef]
    refine ⟨?_, ?_, ?_⟩
    · intro htab
      have he : entry = (WorstFitness, false) := by rw [hentry, if_pos htab]
      rw [hout, he]
      norm_num
    · intro htab _
      have he : entry = (fastFitness F cfg targetF64 (pop.getD i default),
          decide (cfg.F64PromotionThreshold ≤
            (fastFitness F cfg targetF64 (pop.getD i default)).CorrectDigits)) := by
        rw [hentry, if_neg htab]
      constructor
      · intro hge
        rw [hout, he]
        simp only [decide_eq_true_eq]
        rw [if_pos hge, if_neg htab]
        rfl
      · intro hlt
        rw [hout, he]
        simp only [decide_eq_true_eq]
        rw [if_neg (not_le.mpr hlt)]
    · intro _ hzero
      exact absurd hzero (by intro h; exact hT (le_of_eq h))

/-- Witness for C4 at a concrete configuration: with threshold 1, a
candidate with a literal-zero denominator fails the fast path (worst
fitness, digit count 0 < 1) and is not promoted; the same candidate in a
tabu set gets worst fitness without evaluation. -/
theorem evaluatePopulation_two_phase_witness :
    (evaluatePopulation cexOps ⟨4, ⟨10, 2, 1⟩, 1⟩ 0 0 []
        [⟨.const 1, .const 0, 0⟩])[0]? =
      some (fastFitness cexOps ⟨4, ⟨10, 2, 1⟩, 1⟩ 0 ⟨.const 1, .const 0, 0⟩,
        EvalResult.zero) ∧
    (evaluatePopulation cexOps ⟨4, ⟨10, 2, 1⟩, 1⟩ 0 0
        [Candidate.string ⟨.const 1, .const 0, 0⟩]
        [⟨.const 1, .const 0, 0⟩])[0]? =
      some (WorstFitness, EvalResult.zero) :=
  ⟨(((evaluatePopulation_two_phase cexOps ⟨4, ⟨10, 2, 1⟩, 1⟩ 0 0 []
        [⟨.const 1, .const 0, 0⟩] 0 (by simp)).2.1 (by simp) (by norm_num)).2 (by decide)),
   ((evaluatePopulation_two_phase cexOps ⟨4, ⟨10, 2, 1⟩, 1⟩ 0 0
        [Candidate.string ⟨.const 1, .const 0, 0⟩]
        [⟨.const 1, .const 0, 0⟩] 0 (by simp)).1 (by simp))⟩

end GeneticSeries

namespace GeneticSeries

/-- The disjunction of C6 for one candidate: it passes the admission filter,
or it has the structure `randomCandidate` guarantees for a fresh replacement
(both trees of depth at most 4, the replacement depth both strategies use). -/
def admissibleOrFresh (c : Candidate) : Prop :=
  candidateOK c = true ∨
    (c.Numerator.depth ≤ tournamentMaxDepth ∧ c.Denominator.depth ≤ tournamentMaxDepth)

lemma randomTree_depth (p : Pool) (hleaf : ∀ r : Rng, (p.randomLeaf r).1.depth = 1) :
    ∀ (d : ℕ) (rng : Rng), 1 ≤ d → (randomTree p rng d).1.depth ≤ d := by
  intro d
  induction d with
  | zero => omega
  | succ d ih =>
      intro rng _
      cases d with
      | zero =>
          show (p.randomLeaf rng).1.depth ≤ 1
          rw [hleaf rng]
      | succ e =>
          show (randomTree p rng (e + 2)).1.depth ≤ e + 2
          unfold randomTree
          dsimp only []
          split_ifs
          · rw [hleaf]
            omega
          · simp only [Expr.depth]
            have h1 := ih ((p.randomUnary (rng.float).2).2) (by omega)
            omega
          · simp only [Expr.depth]
            have h1 := ih ((p.randomBinary (rng.float).2).2) (by omega)
            have h2 := ih ((randomTree p ((p.randomBinary (rng.float).2).2) (e + 1)).2) (by omega)
            omega

lemma randomCandidate_fresh (p : Pool) (hleaf : ∀ r : Rng, (p.randomLeaf r).1.depth = 1)
    (rng : Rng) : admissibleOrFresh (randomCandidate p rng 4).1 := by
  unfold randomCandidate
  right
  exact ⟨randomTree_depth p hleaf 4 rng (by omega),
    randomTree_depth p hleaf 4 (randomTree p rng 4).2 (by omega)⟩

lemma hillclimbMutStep_inv (F : FloatOps) (p : Pool)
    (hleaf : ∀ r : Rng, (p.randomLeaf r).1.depth = 1) (c : Candidate) (rng : Rng) :
    admissibleOrFresh (hillclimbMutStep F p c rng).1 := by
  unfold hillclimbMutStep
  dsimp only []
  split_ifs with h
  · exact Or.inl h
  · exact randomCandidate_fresh p hleaf _

lemma mapWithRng_inv (f : Candidate → Rng → Candidate × Rng)
    (Q : Candidate → Prop) (hf : ∀ c rng, Q (f c rng).1) :
    ∀ (l : List Candidate) (rng : Rng), ∀ x ∈ (mapWithRng f l rng).1, Q x := by
  intro l
  induction l with
  | nil => intro rng x hx; simp [mapWithRng] at hx
  | cons a l ih =>
      intro rng x hx
      unfold mapWithRng at hx
      simp only [List.mem_cons] at hx
      rcases hx with hx | hx
      · rw [hx]
        exact hf a rng
      · exact ih (f a rng).2 x hx

lemma foldl_set_random_inv (p : Pool) (hleaf : ∀ r : Rng, (p.randomLeaf r).1.depth = 1)
    (Q : Candidate → Prop) (hQfresh : ∀ c, admissibleOrFresh c → Q c) :
    ∀ (l : List ℕ) (start : List Candidate × Rng), (∀ x ∈ start.1, Q x) →
      ∀ x ∈ (l.foldl (fun (acc : List Candidate × Rng) (idx : ℕ) =>
        let cr := randomCandidate p acc.2 hillclimbMaxDepth
        (acc.1.set idx cr.1, cr.2)) start).1, Q x := by
  intro l
  induction l with
  | nil => intro start h x hx; exact h x hx
  | cons a l ih =>
      intro start h x hx
      rw [List.foldl_cons] at hx
      refine ih _ ?_ x hx
      intro y hy
      rcases List.mem_or_eq_of_mem_set hy with hy | hy
      · exact h y hy
      · rw [hy]
        exact hQfresh _ (randomCandidate_fresh p hleaf start.2)

lemma tournamentFill_inv (F : FloatOps) (p : Pool) (pop : List Candidate)
    (fits : List Fitness) (hleaf : ∀ r : Rng, (p.randomLeaf r).1.depth = 1) :
    ∀ (fuel : ℕ) (next : List Candidate) (rng : Rng),
      (∀ x ∈ next, admissibleOrFresh x) →
      ∀ x ∈ (tournamentFill F p pop fits fuel next rng).1, admissibleOrFresh x := by
  intro fuel
  induction fuel with
  | zero => intro next rng h x hx; exact h x hx
  | succ fuel ih =>
      intro next rng h x hx
      unfold tournamentFill at hx
      by_cases hlen : pop.length ≤ next.length
      · rw [if_pos hlen] at hx
        exact h x hx
      · rw [if_neg hlen] at hx
        dsimp only [] at hx
        set off := tournamentOffspring F p pop fits rng with hoff
        set x1 := if candidateOK off.1 = true then (off.1, off.2.2)
          else randomCandidate p off.2.2 tournamentMaxDepth with hx1d
        set x2 := if candidateOK off.2.1 = true then (off.2.1, x1.2)
          else randomCandidate p x1.2 tournamentMaxDepth with hx2d
        have hq1 : admissibleOrFresh x1.1 := by
          rw [hx1d]
          split_ifs with hok
          · exact Or.inl hok
          · exact randomCandidate_fresh p hleaf _
        have hq2 : admissibleOrFresh x2.1 := by
          rw [hx2d]
          split_ifs with hok
          · exact Or.inl hok
          · exact randomCandidate_fresh p hleaf _
        by_cases hfill : (next ++ [x1.1]).length < pop.length
        · rw [if_pos hfill] at hx
          refine ih _ _ ?_ x hx
          intro y hy
          simp only [List.mem_append, List.mem_singleton] at hy
          rcases hy with (hy | hy) | hy
          · exact h y hy
          · rw [hy]; exact hq1
          · rw [hy]; exact hq2
        · rw [if_neg hfill] at hx
          refine ih _ _ ?_ x hx
          intro y hy
          simp only [List.mem_append, List.mem_singleton] at hy
          rcases hy with hy | hy
          · exact h y hy
          · rw [hy]; exact hq1

lemma conservativePool_leaf_depth (r : Rng) :
    (conservativePool.randomLeaf r).1.depth = 1 := by
  unfold conservativePool
  dsimp only []
  split_ifs <;> rfl

/-- C6: both strategies maintain the admission invariant.  If every
candidate of the current population either passes the admission filter
(each tree depth at most 10 and at most 25 nodes in total) or has the shape
of a fresh depth-4 random replacement, then so does every candidate of the
population returned by `Evolve` — mutated/crossed candidates are admitted
only after passing `candidateOK`, rejected ones are replaced by fresh
depth-4 random candidates, random injections are fresh, and elite clones
copy a candidate that already satisfied the invariant. -/
theorem evolve_admission_invariant (F : FloatOps) (p : Pool) (pop : List Candidate)
    (fits : List Fitness) (rng : Rng) (hpop : 0 < pop.length)
    (hleaf : ∀ r : Rng, (p.randomLeaf r).1.depth = 1)
    (hinv : ∀ c ∈ pop, admissibleOrFresh c) :
    (∀ c ∈ (hillclimbEvolve F p pop fits rng).1, admissibleOrFresh c) ∧
    (∀ c ∈ (tournamentEvolve F p pop fits rng).1, admissibleOrFresh c) := by
  constructor
  · intro c hc
    unfold hillclimbEvolve at hc
    dsimp only [] at hc
    set nx := mapWithRng (hillclimbMutStep F p) pop rng with hnx
    set ranked := (List.range pop.length).mergeSort
      (fun a b => decide ((fits.getD a default).Combined ≤
        (fits.getD b default).Combined)) with hranked
    have hrlen : ranked.length = pop.length := by
      rw [hranked, List.length_mergeSort, List.length_range]
    have hnxinv : ∀ x ∈ nx.1, admissibleOrFresh x := by
      rw [hnx]
      exact mapWithRng_inv _ _ (fun c2 rng2 => hillclimbMutStep_inv F p hleaf c2 rng2) pop rng
    rcases List.mem_or_eq_of_mem_set hc with hc | hc
    · exact foldl_set_random_inv p hleaf admissibleOrFresh (fun c2 h2 => h2)
        (ranked.take (min (max (pop.length * 5 / 100) 1) pop.length)) nx hnxinv c hc
    · have hmem : ranked.getD (ranked.length - 1) 0 ∈ ranked :=
        getD_mem _ _ _ (by omega)
      have hlt : ranked.getD (ranked.length - 1) 0 < pop.length := by
        rw [hranked] at hmem
        exact List.mem_range.mp (List.mem_mergeSort.mp hmem)
      rw [hc, candClone_eq]
      exact hinv _ (getD_mem _ _ _ hlt)
  · intro c hc
    unfold tournamentEvolve at hc
    dsimp only [] at hc
    set indices := (List.range pop.length).mergeSort
      (fun a b => decide ((fits.getD b default).Combined ≤
        (fits.getD a default).Combined)) with hind
    have hc2 := List.mem_of_mem_take hc
    refine tournamentFill_inv F p pop fits hleaf _ _ _ ?_ c hc2
    intro y hy
    simp only [List.mem_map] at hy
    obtain ⟨i, hi, hyd⟩ := hy
    have hi2 := List.mem_of_mem_take hi
    have hi3 : i < pop.length := by
      rw [hind] at hi2
      exact List.mem_range.mp (List.mem_mergeSort.mp hi2)
    rw [← hyd, candClone_eq]
    exact hinv _ (getD_mem _ _ _ hi3)

/-- Witness for C6 on a one-candidate population with the conservative pool
and a concrete rng. -/
theorem evolve_admission_invariant_witness :
    (∀ c ∈ (hillclimbEvolve cexOps conservativePool [⟨.var, .var, 0⟩]
        [⟨0, 0, 0, 0⟩] ⟨fun _ => 0, fun _ => 0, 0, 0⟩).1, admissibleOrFresh c) ∧
    (∀ c ∈ (tournamentEvolve cexOps conservativePool [⟨.var, .var, 0⟩]
        [⟨0, 0, 0, 0⟩] ⟨fun _ => 0, fun _ => 0, 0, 0⟩).1, admissibleOrFresh c) :=
  evolve_admission_invariant cexOps conservativePool [⟨.var, .var, 0⟩]
    [⟨0, 0, 0, 0⟩] ⟨fun _ => 0, fun _ => 0, 0, 0⟩ (by simp)
    conservativePool_leaf_depth
    (by
      intro c hc
      simp only [List.mem_singleton] at hc
      rw [hc]
      exact Or.inl (by decide))

end GeneticSeries

namespace GeneticSeries

/-! ### The simplifier: size and value preservation (claim C7) -/

lemma binPowQ_eq : ∀ (e : ℕ) (res b : ℚ), binPowQ res b e = res * b ^ e := by
  intro e
  induction e using Nat.strong_induction_on with
  | _ e ih =>
      intro res b
      rw [binPowQ]
      by_cases he : e = 0
      · simp [he]
      · rw [if_neg he]
        rw [ih (e / 2) (Nat.div_lt_self (Nat.pos_of_ne_zero he) (by norm_num))]
        have hbb : (b * b) ^ (e / 2) = b ^ (2 * (e / 2)) := by
          rw [two_mul, pow_add, ← mul_pow]
        by_cases hp : e % 2 = 1
        · rw [if_pos hp, hbb]
          have hbe : b ^ e = b ^ (2 * (e / 2)) * b := by
            rw [← pow_succ]
            congr 1
            omega
          rw [hbe]; ring
        · rw [if_neg hp, hbb]
          have hbe : b ^ e = b ^ (2 * (e / 2)) := by
            congr 1
            omega
          rw [hbe]

lemma toInt64_intCast (b : ℤ) (h0 : -2 ^ 63 ≤ b) (h1 : b < 2 ^ 63) :
    toInt64 (b : ℚ) = some b := by
  unfold toInt64
  rw [if_pos]
  · simp
  · refine ⟨by simp, by simpa using h0, by simpa using h1⟩

lemma bigPow_int_exp (F : FloatOps) (a : ℚ) (b : ℤ) (h0 : 0 ≤ b) (h1 : b ≤ 200) :
    bigPow F a (b : ℚ) = some (a ^ b.toNat) := by
  unfold bigPow
  rw [toInt64_intCast b (by omega) (by omega)]
  dsimp only
  rw [if_neg (by omega : ¬ b < 0)]
  unfold intPow
  rw [if_neg (by omega : ¬ (200 : ℤ) < b), binPowQ_eq]
  simp

lemma bigPow_one_base (F : FloatOps) (hpow1 : ∀ y : ℚ, F.powf 1 y = 1) (y v : ℚ)
    (h : bigPow F 1 y = some v) : v = 1 := by
  unfold bigPow at h
  cases hty : toInt64 y with
  | none =>
      rw [hty] at h
      dsimp only at h
      rw [if_neg (by norm_num), hpow1] at h
      exact (Option.some_inj.mp h).symm
  | some ei =>
      rw [hty] at h
      dsimp only at h
      by_cases hei : ei < 0
      · rw [if_pos hei, if_neg one_ne_zero] at h
        unfold intPow at h
        by_cases hc : 200 < -ei
        · rw [if_pos hc] at h
          simp at h
        · rw [if_neg hc] at h
          dsimp only at h
          rw [binPowQ_eq, Option.some_inj] at h
          rw [← h]
          simp
      · rw [if_neg hei] at h
        unfold intPow at h
        by_cases hc : 200 < ei
        · rw [if_pos hc] at h
          simp at h
        · rw [if_neg hc] at h
          rw [binPowQ_eq, Option.some_inj] at h
          rw [← h]
          simp

lemma int_div_exact (a b : ℤ) (hb : b ≠ 0) (hmod : a.tmod b = 0) :
    (a : ℚ) / (b : ℚ) = ((a.tdiv b : ℤ) : ℚ) := by
  obtain ⟨c, hc⟩ := (tmod_eq_zero_iff_dvd a b).mp hmod
  subst hc
  rw [Int.mul_tdiv_cancel_left c hb]
  push_cast
  rw [mul_comm, mul_div_assoc, div_self (by exact_mod_cast hb), mul_one]

lemma constVal_shape {t : Expr} {a : ℤ} (h : t.constVal? = some a) : t = .const a := by
  cases t <;> simp_all [Expr.constVal?]

/-- A single instrumented pass never increases the node count. -/
lemma simplifyOnceI_nodeCount : ∀ (fuel : ℕ) (t : Expr),
    ((simplifyOnceI fuel t).1).nodeCount ≤ t.nodeCount := by
  intro fuel
  induction fuel with
  | zero => intro t; exact le_refl _
  | succ fuel ih =>
      intro t
      cases t with
      | var => exact le_refl _
      | const v => exact le_refl _
      | unary op c =>
          have hc := ih c
          have hpos := nodeCount_pos c
          simp only [simplifyOnceI, simplifyUnaryRules, Expr.nodeCount]
          cases hch : (simplifyOnceI fuel c).1 with
          | var =>
              rw [hch] at hc
              simp only [Expr.nodeCount] at hc
              cases op <;> (try dsimp only [simplifyBinaryRewrites]) <;> (first
                | omega
                | (simp only [Expr.nodeCount]; omega)
                | (refine le_trans (ih _) ?_;
                   simp only [Expr.nodeCount]; omega)
                | (split_ifs <;>
                    first
                    | omega
                    | (simp only [Expr.nodeCount]; omega)
                    | (refine le_trans (ih _) ?_;
                       simp only [Expr.nodeCount]; omega)))
          | const k =>
              rw [hch] at hc
              simp only [Expr.nodeCount] at hc
              cases op <;> (try dsimp only [simplifyBinaryRewrites]) <;> (first
                | omega
                | (simp only [Expr.nodeCount]; omega)
                | (refine le_trans (ih _) ?_;
                   simp only [Expr.nodeCount]; omega)
                | (split_ifs <;>
                    first
                    | omega
                    | (simp only [Expr.nodeCount]; omega)
                    | (refine le_trans (ih _) ?_;
                       simp only [Expr.nodeCount]; omega)))
          | unary uop inner =>
              rw [hch] at hc
              simp only [Expr.nodeCount] at hc
              cases op <;> cases uop <;> (try dsimp only [simplifyBinaryRewrites]) <;> (first
                | omega
                | (simp only [Expr.nodeCount]; omega)
                | (refine le_trans (ih _) ?_;
                   simp only [Expr.nodeCount]; omega)
                | (split_ifs <;>
                    first
                    | omega
                    | (simp only [Expr.nodeCount]; omega)
                    | (refine le_trans (ih _) ?_;
                       simp only [Expr.nodeCount]; omega)))
          | binary bop bl br =>
              rw [hch] at hc
              simp only [Expr.nodeCount] at hc
              cases op <;> (try dsimp only [simplifyBinaryRewrites]) <;> (first
                | omega
                | (simp only [Expr.nodeCount]; omega)
                | (refine le_trans (ih _) ?_;
                   simp only [Expr.nodeCount]; omega)
                | (split_ifs <;>
                    first
                    | omega
                    | (simp only [Expr.nodeCount]; omega)
                    | (refine le_trans (ih _) ?_;
                       simp only [Expr.nodeCount]; omega)))
      | binary op l r =>
          have hl := ih l
          have hr := ih r
          have hposl := nodeCount_pos l
          have hposr := nodeCount_pos r
          simp only [simplifyOnceI, simplifyBinaryRules, simplifyBinaryRewrites, Expr.nodeCount]
          cases hcl : ((simplifyOnceI fuel l).1).constVal? with
          | some a =>
              cases hcr : ((simplifyOnceI fuel r).1).constVal? with
              | some b =>
                  dsimp only
                  cases hf : foldConstants op a b with
                  | some res =>
                      simp only [Option.map_some']
                      try dsimp only
                      simp only [Expr.nodeCount]
                      omega
                  | none =>
                      simp only [Option.map_none']
                      try dsimp only [simplifyBinaryRewrites]
                      cases op <;> (try dsimp only [simplifyBinaryRewrites]) <;> (first
                | omega
                | (simp only [Expr.nodeCount]; omega)
                | (refine le_trans (ih _) ?_;
                   simp only [Expr.nodeCount]; omega)
                | (split_ifs <;>
                    first
                    | omega
                    | (simp only [Expr.nodeCount]; omega)
                    | (refine le_trans (ih _) ?_;
                       simp only [Expr.nodeCount]; omega)))
              | none =>
                  cases hrs : (simplifyOnceI fuel r).1 with
                  | var =>
                      rw [hrs] at hr
                      simp only [Expr.nodeCount] at hr
                      cases op <;> (try dsimp only [simplifyBinaryRewrites]) <;> (first
                | omega
                | (simp only [Expr.nodeCount]; omega)
                | (refine le_trans (ih _) ?_;
                   simp only [Expr.nodeCount]; omega)
                | (split_ifs <;>
                    first
                    | omega
                    | (simp only [Expr.nodeCount]; omega)
                    | (refine le_trans (ih _) ?_;
                       simp only [Expr.nodeCount]; omega)))
                  | const k =>
                      rw [hrs] at hr
                      simp only [Expr.nodeCount] at hr
                      cases op <;> (try dsimp only [simplifyBinaryRewrites]) <;> (first
                | omega
                | (simp only [Expr.nodeCount]; omega)
                | (refine le_trans (ih _) ?_;
                   simp only [Expr.nodeCount]; omega)
                | (split_ifs <;>
                    first
                    | omega
                    | (simp only [Expr.nodeCount]; omega)
                    | (refine le_trans (ih _) ?_;
                       simp only [Expr.nodeCount]; omega)))
                  | unary uop u =>
                      rw [hrs] at hr
                      simp only [Expr.nodeCount] at hr
                      cases op <;> cases uop <;> (try dsimp only [simplifyBinaryRewrites]) <;> (first
                | omega
                | (simp only [Expr.nodeCount]; omega)
                | (refine le_trans (ih _) ?_;
                   simp only [Expr.nodeCount]; omega)
                | (split_ifs <;>
                    first
                    | omega
                    | (simp only [Expr.nodeCount]; omega)
                    | (refine le_trans (ih _) ?_;
                       simp only [Expr.nodeCount]; omega)))
                  | binary b2 x y =>
                      rw [hrs] at hr
                      simp only [Expr.nodeCount] at hr
                      cases op <;> (try dsimp only [simplifyBinaryRewrites]) <;> (first
                | omega
                | (simp only [Expr.nodeCount]; omega)
                | (refine le_trans (ih _) ?_;
                   simp only [Expr.nodeCount]; omega)
                | (split_ifs <;>
                    first
                    | omega
                    | (simp only [Expr.nodeCount]; omega)
                    | (refine le_trans (ih _) ?_;
                       simp only [Expr.nodeCount]; omega)))
          | none =>
              cases hcr : ((simplifyOnceI fuel r).1).constVal? with
              | some b =>
                  cases op <;> (try dsimp only [simplifyBinaryRewrites]) <;> (first
                | omega
                | (simp only [Expr.nodeCount]; omega)
                | (refine le_trans (ih _) ?_;
                   simp only [Expr.nodeCount]; omega)
                | (split_ifs <;>
                    first
                    | omega
                    | (simp only [Expr.nodeCount]; omega)
                    | (refine le_trans (ih _) ?_;
                       simp only [Expr.nodeCount]; omega)))
              | none =>
                  cases hrs : (simplifyOnceI fuel r).1 with
                  | var =>
                      rw [hrs] at hr
                      simp only [Expr.nodeCount] at hr
                      cases op <;> (try dsimp only [simplifyBinaryRewrites]) <;> (first
                | omega
                | (simp only [Expr.nodeCount]; omega)
                | (refine le_trans (ih _) ?_;
                   simp only [Expr.nodeCount]; omega)
                | (split_ifs <;>
                    first
                    | omega
                    | (simp only [Expr.nodeCount]; omega)
                    | (refine le_trans (ih _) ?_;
                       simp only [Expr.nodeCount]; omega)))
                  | const k =>
                      rw [hrs] at hr
                      simp only [Expr.nodeCount] at hr
                      cases op <;> (try dsimp only [simplifyBinaryRewrites]) <;> (first
                | omega
                | (simp only [Expr.nodeCount]; omega)
                | (refine le_trans (ih _) ?_;
                   simp only [Expr.nodeCount]; omega)
                | (split_ifs <;>
                    first
                    | omega
                    | (simp only [Expr.nodeCount]; omega)
                    | (refine le_trans (ih _) ?_;
                       simp only [Expr.nodeCount]; omega)))
                  | unary uop u =>
                      rw [hrs] at hr
                      simp only [Expr.nodeCount] at hr
                      cases op <;> cases uop <;> (try dsimp only [simplifyBinaryRewrites]) <;> (first
                | omega
                | (simp only [Expr.nodeCount]; omega)
                | (refine le_trans (ih _) ?_;
                   simp only [Expr.nodeCount]; omega)
                | (split_ifs <;>
                    first
                    | omega
                    | (simp only [Expr.nodeCount]; omega)
                    | (refine le_trans (ih _) ?_;
                       simp only [Expr.nodeCount]; omega)))
                  | binary b2 x y =>
                      rw [hrs] at hr
                      simp only [Expr.nodeCount] at hr
                      cases op <;> (try dsimp only [simplifyBinaryRewrites]) <;> (first
                | omega
                | (simp only [Expr.nodeCount]; omega)
                | (refine le_trans (ih _) ?_;
                   simp only [Expr.nodeCount]; omega)
                | (split_ifs <;>
                    first
                    | omega
                    | (simp only [Expr.nodeCount]; omega)
                    | (refine le_trans (ih _) ?_;
                       simp only [Expr.nodeCount]; omega)))

lemma bigFactorial_int (k : ℤ) (h0 : 0 ≤ k) (h1 : k ≤ 1000) :
    bigFactorial (k : ℚ) = some ((Nat.factorial k.toNat : ℕ) : ℚ) := by
  unfold bigFactorial
  rw [toInt64_intCast k (by omega) (by omega)]
  dsimp only
  rw [if_neg (by omega)]

lemma bigDoubleFactorial_int (k : ℤ) (h0 : 0 ≤ k) (h1 : k ≤ 1000) :
    bigDoubleFactorial (k : ℚ) = some ((doubleFactorial k.toNat : ℕ) : ℚ) := by
  unfold bigDoubleFactorial
  rw [toInt64_intCast k (by omega) (by omega)]
  dsimp only
  rw [if_neg (by omega)]

lemma toInt64_intCast_big (k : ℤ) (h : 2 ^ 63 ≤ k) : toInt64 (k : ℚ) = none := by
  unfold toInt64
  rw [if_neg]
  simp only [Rat.num_intCast, Rat.den_intCast]
  omega

/-- Value preservation of a unary rewrite carrying a true instrumentation
flag: if the (already simplified) child evaluates to the value `cv` the
original child evaluated to, and the original unary node evaluated to `v`,
then the rewritten node also evaluates to `v`.  Needs exactness of the
platform square root on perfect squares. -/
lemma simplifyUnaryRules_sound (F : FloatOps)
    (hsqrt : ∀ k : ℤ, 0 ≤ k → Int.sqrt k * Int.sqrt k = k → F.sqrt (k : ℚ) = (Int.sqrt k : ℚ))
    (op : UnaryOp) (child : Expr) (okc : Bool) (n cv v : ℚ)
    (hch : okc = true → Expr.eval F child n = some cv)
    (hu : evalUnary F op cv = some v)
    (hfl : (simplifyUnaryRules op child okc).2 = true) :
    Expr.eval F (simplifyUnaryRules op child okc).1 n = some v := by
  unfold simplifyUnaryRules at hfl ⊢
  cases child with
  | var =>
      cases op <;> dsimp only at hfl ⊢ <;>
        (have h2 := hch hfl
         simp only [Expr.eval, Option.bind_eq_some] at h2 ⊢
         exact ⟨cv, h2, hu⟩)
  | binary b2 x y =>
      cases op <;> dsimp only at hfl ⊢ <;>
        (have h2 := hch hfl
         simp only [Expr.eval, Option.bind_eq_some] at h2 ⊢
         exact ⟨cv, h2, hu⟩)
  | unary u2 cc =>
      cases op <;> cases u2 <;> dsimp only at hfl ⊢ <;>
        first
        | (have h2 := hch hfl
           simp only [Expr.eval, Option.bind_eq_some] at h2 ⊢
           exact ⟨cv, h2, hu⟩)
        | (have h2 := hch hfl
           simp only [Expr.eval, Option.bind_eq_some] at h2
           obtain ⟨w, hw, hcv⟩ := h2
           simp only [evalUnary, Option.some_inj] at hcv hu
           rw [hw, ← hu, ← hcv]
           norm_num)
  | const k =>
      cases op with
      | neg =>
          dsimp only at hfl ⊢
          rw [Bool.and_eq_true] at hfl
          obtain ⟨hok, hwd⟩ := hfl
          have hwrap := of_decide_eq_true hwd
          have h2 := hch hok
          simp only [Expr.eval, Option.some_inj] at h2
          simp only [evalUnary, Option.some_inj] at hu
          simp only [Expr.eval, Option.some_inj]
          rw [hwrap]
          push_cast
          rw [h2]
          exact hu
      | factorial =>
          dsimp only at hfl ⊢
          split_ifs at hfl ⊢ with hk
          · dsimp only at hfl
            have h2 := hch hfl
            simp only [Expr.eval, Option.some_inj] at h2
            simp only [evalUnary] at hu
            rw [← h2] at hu
            rw [bigFactorial_int k hk.1 (by omega)] at hu
            simp only [Expr.eval, Option.some_inj]
            rw [← Option.some_inj.mp hu]
            push_cast
            norm_num
          · dsimp only at hfl ⊢
            have h2 := hch hfl
            simp only [Expr.eval, Option.some_inj] at h2
            simp only [Expr.eval, Option.some_bind]
            rw [← h2] at hu
            exact hu
      | doubleFactorial =>
          dsimp only at hfl ⊢
          split_ifs at hfl ⊢ with hk
          · dsimp only at hfl
            have h2 := hch hfl
            simp only [Expr.eval, Option.some_inj] at h2
            simp only [evalUnary] at hu
            rw [← h2] at hu
            rw [bigDoubleFactorial_int k hk.1 (by omega)] at hu
            simp only [Expr.eval, Option.some_inj]
            rw [← Option.some_inj.mp hu]
            push_cast
            norm_num
          · dsimp only at hfl ⊢
            have h2 := hch hfl
            simp only [Expr.eval, Option.some_inj] at h2
            simp only [Expr.eval, Option.some_bind]
            rw [← h2] at hu
            exact hu
      | altSign =>
          dsimp only at hfl ⊢
          by_cases hk : 0 ≤ k
          · rw [if_pos hk] at hfl ⊢
            dsimp only at hfl ⊢
            have h2 := hch hfl
            simp only [Expr.eval, Option.some_inj] at h2
            simp only [evalUnary] at hu
            rw [← h2] at hu
            by_cases hbig : k < 2 ^ 63
            · rw [toInt64_intCast k (by omega) hbig] at hu
              dsimp only at hu
              rw [if_neg (by omega)] at hu
              simp only [Expr.eval, Option.some_inj]
              rw [← Option.some_inj.mp hu]
              split_ifs <;> norm_num
            · rw [toInt64_intCast_big k (by omega)] at hu
              simp at hu
          · rw [if_neg hk] at hfl ⊢
            dsimp only at hfl ⊢
            have h2 := hch hfl
            simp only [Expr.eval, Option.some_inj] at h2
            simp only [Expr.eval, Option.some_bind]
            rw [← h2] at hu
            exact hu
      | abs =>
          dsimp only at hfl ⊢
          split_ifs at hfl ⊢ with hk
          · dsimp only at hfl
            rw [Bool.and_eq_true] at hfl
            obtain ⟨hok, hwd⟩ := hfl
            have hwrap := of_decide_eq_true hwd
            have h2 := hch hok
            simp only [Expr.eval, Option.some_inj] at h2
            simp only [evalUnary, Option.some_inj] at hu
            simp only [Expr.eval, Option.some_inj]
            rw [hwrap]
            push_cast
            rw [h2]
            rw [← hu, abs_of_neg (by rw [← h2]; exact_mod_cast hk)]
          · dsimp only at hfl
            have h2 := hch hfl
            simp only [Expr.eval, Option.some_inj] at h2
            simp only [evalUnary, Option.some_inj] at hu
            simp only [Expr.eval, Option.some_inj]
            rw [h2, ← hu, abs_of_nonneg (by rw [← h2]; exact_mod_cast not_lt.mp hk)]
      | sqrt =>
          dsimp only at hfl ⊢
          split_ifs at hfl ⊢ with hk
          · dsimp only at hfl
            have h2 := hch hfl
            simp only [Expr.eval, Option.some_inj] at h2
            simp only [evalUnary] at hu
            rw [← h2, if_neg (by rw [not_lt]; exact_mod_cast hk.1)] at hu
            simp only [Expr.eval, Option.some_inj]
            rw [← Option.some_inj.mp hu, hsqrt k hk.1 hk.2]
          · dsimp only at hfl ⊢
            have h2 := hch hfl
            simp only [Expr.eval, Option.some_inj] at h2
            simp only [Expr.eval, Option.some_bind]
            rw [← h2] at hu
            exact hu
      | fibonacci =>
          dsimp only at hfl ⊢
          have h2 := hch hfl
          simp only [Expr.eval, Option.bind_eq_some] at h2 ⊢
          exact ⟨cv, h2, hu⟩
      | sin =>
          dsimp only at hfl ⊢
          have h2 := hch hfl
          simp only [Expr.eval, Option.bind_eq_some] at h2 ⊢
          exact ⟨cv, h2, hu⟩
      | cos =>
          dsimp only at hfl ⊢
          have h2 := hch hfl
          simp only [Expr.eval, Option.bind_eq_some] at h2 ⊢
          exact ⟨cv, h2, hu⟩
      | ln =>
          dsimp only at hfl ⊢
          have h2 := hch hfl
          simp only [Expr.eval, Option.bind_eq_some] at h2 ⊢
          exact ⟨cv, h2, hu⟩
      | floor =>
          dsimp only at hfl ⊢
          have h2 := hch hfl
          simp only [Expr.eval, Option.bind_eq_some] at h2 ⊢
          exact ⟨cv, h2, hu⟩
      | ceil =>
          dsimp only at hfl ⊢
          have h2 := hch hfl
          simp only [Expr.eval, Option.bind_eq_some] at h2 ⊢
          exact ⟨cv, h2, hu⟩

lemma eval_const_node (F : FloatOps) (k : ℤ) (n : ℚ) :
    Expr.eval F (.const k) n = some (k : ℚ) := rfl

lemma eval_unary_node (F : FloatOps) (op : UnaryOp) (c : Expr) (n cv v : ℚ)
    (h1 : Expr.eval F c n = some cv) (h2 : evalUnary F op cv = some v) :
    Expr.eval F (.unary op c) n = some v := by
  have h : Expr.eval F (.unary op c) n = (Expr.eval F c n).bind (evalUnary F op) := rfl
  rw [h, h1]
  exact h2

lemma eval_binary_node (F : FloatOps) (op : BinaryOp) (l r : Expr) (n av bv v : ℚ)
    (h1 : Expr.eval F l n = some av) (h2 : Expr.eval F r n = some bv)
    (h3 : evalBinary F op av bv = some v) :
    Expr.eval F (.binary op l r) n = some v := by
  have h : Expr.eval F (.binary op l r) n
      = (Expr.eval F l n).bind fun a => (Expr.eval F r n).bind fun b => evalBinary F op a b := rfl
  rw [h, h1]
  show (Expr.eval F r n).bind _ = some v
  rw [h2]
  exact h3

lemma sub_self_case (F : FloatOps) (n : ℚ) (left right : Expr) (ok0 : Bool) (av bv v : ℚ)
    (hlr : ok0 = true → Expr.eval F left n = some av ∧ Expr.eval F right n = some bv)
    (hv2 : av - bv = v)
    (hfl : (ok0 && decide (left = right)) = true) :
    Expr.eval F (.const 0) n = some v := by
  rw [Bool.and_eq_true] at hfl
  obtain ⟨hok, hd⟩ := hfl
  have heq := of_decide_eq_true hd
  obtain ⟨hleft, hright⟩ := hlr hok
  rw [heq] at hleft
  rw [hleft, Option.some_inj] at hright
  rw [eval_const_node]
  congr 1
  rw [← hv2, hright]
  push_cast
  ring

/-- Value preservation of the per-operator binary rewrites under a true
instrumentation flag.  `re` is the re-entry into the simplification pass;
`hre` is its soundness.  Needs `1^y = 1` for the platform `math.Pow`. -/
lemma simplifyBinaryRewrites_sound (F : FloatOps)
    (hpow1 : ∀ y : ℚ, F.powf 1 y = 1)
    (re : Expr → Expr × Bool) (n : ℚ)
    (hre : ∀ (u : Expr) (w : ℚ), (re u).2 = true → Expr.eval F u n = some w →
      Expr.eval F (re u).1 n = some w)
    (op : BinaryOp) (left right : Expr) (ok0 : Bool) (av bv v : ℚ)
    (hlr : ok0 = true → Expr.eval F left n = some av ∧ Expr.eval F right n = some bv)
    (hv : evalBinary F op av bv = some v)
    (hfl : (simplifyBinaryRewrites re op left right ok0).2 = true) :
    Expr.eval F (simplifyBinaryRewrites re op left right ok0).1 n = some v := by
  unfold simplifyBinaryRewrites at hfl ⊢
  cases op with
  | add =>
      dsimp only at hfl ⊢
      have hv2 : evalBinary F .add av bv = some v := hv
      simp only [evalBinary, Option.some_inj] at hv2
      by_cases hb0 : right.constVal? = some 0
      · rw [if_pos hb0] at hfl ⊢
        obtain ⟨hleft, hright⟩ := hlr hfl
        obtain rfl := constVal_shape hb0
        rw [eval_const_node, Option.some_inj] at hright
        rw [hleft]
        congr 1
        rw [← hv2, ← hright]
        push_cast
        ring
      · rw [if_neg hb0] at hfl ⊢
        by_cases ha0 : left.constVal? = some 0
        · rw [if_pos ha0] at hfl ⊢
          obtain ⟨hleft, hright⟩ := hlr hfl
          obtain rfl := constVal_shape ha0
          rw [eval_const_node, Option.some_inj] at hleft
          rw [hright]
          congr 1
          rw [← hv2, ← hleft]
          push_cast
          ring
        · rw [if_neg ha0] at hfl ⊢
          rcases hrc : right.constVal? with _ | rc
          · rw [hrc] at hfl
            dsimp only at hfl ⊢
            cases right with
            | var =>
                exact eval_binary_node F _ left _ n av bv v (hlr hfl).1 (hlr hfl).2 hv
            | const k =>
                exact eval_binary_node F _ left _ n av bv v (hlr hfl).1 (hlr hfl).2 hv
            | binary b2 x y =>
                exact eval_binary_node F _ left _ n av bv v (hlr hfl).1 (hlr hfl).2 hv
            | unary u2 uu =>
                cases u2 <;>
                  first
                  | (dsimp only at hfl ⊢
                     rw [Bool.and_eq_true] at hfl
                     obtain ⟨hok, hq⟩ := hfl
                     obtain ⟨hleft, hright⟩ := hlr hok
                     have hrr : (Expr.eval F uu n).bind (evalUnary F .neg) = some bv := hright
                     rw [Option.bind_eq_some] at hrr
                     obtain ⟨w, hw, hbw⟩ := hrr
                     simp only [evalUnary, Option.some_inj] at hbw
                     refine hre _ v hq (eval_binary_node F .sub left uu n av w v hleft hw ?_)
                     simp only [evalBinary, Option.some_inj]
                     rw [← hv2, ← hbw]
                     ring)
                  | exact eval_binary_node F _ left _ n av bv v (hlr hfl).1 (hlr hfl).2 hv
          · rw [hrc] at hfl
            dsimp only at hfl ⊢
            by_cases hneg : rc < 0
            · rw [if_pos hneg] at hfl ⊢
              dsimp only at hfl ⊢
              rw [Bool.and_eq_true, Bool.and_eq_true] at hfl
              obtain ⟨⟨hok, hwd⟩, hq⟩ := hfl
              have hwrap := of_decide_eq_true hwd
              obtain ⟨hleft, hright⟩ := hlr hok
              obtain rfl := constVal_shape hrc
              rw [eval_const_node, Option.some_inj] at hright
              refine hre _ v hq (eval_binary_node F .sub left (.const (wrap64 (-rc))) n
                av ((wrap64 (-rc) : ℤ) : ℚ) v hleft (eval_const_node F _ n) ?_)
              simp only [evalBinary, Option.some_inj]
              rw [hwrap, ← hv2, ← hright]
              push_cast
              ring
            · rw [if_neg hneg] at hfl ⊢
              exact eval_binary_node F _ left _ n av bv v (hlr hfl).1 (hlr hfl).2 hv
  | sub =>
      dsimp only at hfl ⊢
      have hv2 : evalBinary F .sub av bv = some v := hv
      simp only [evalBinary, Option.some_inj] at hv2
      by_cases hb0 : right.constVal? = some 0
      · rw [if_pos hb0] at hfl ⊢
        obtain ⟨hleft, hright⟩ := hlr hfl
        obtain rfl := constVal_shape hb0
        rw [eval_const_node, Option.some_inj] at hright
        rw [hleft]
        congr 1
        rw [← hv2, ← hright]
        push_cast
        ring
      · rw [if_neg hb0] at hfl ⊢
        by_cases ha0 : left.constVal? = some 0
        · rw [if_pos ha0] at hfl ⊢
          dsimp only at hfl ⊢
          rw [Bool.and_eq_true] at hfl
          obtain ⟨hok, hq⟩ := hfl
          obtain ⟨hleft, hright⟩ := hlr hok
          obtain rfl := constVal_shape ha0
          rw [eval_const_node, Option.some_inj] at hleft
          refine hre _ v hq (eval_unary_node F .neg right n bv v hright ?_)
          simp only [evalUnary, Option.some_inj]
          rw [← hv2, ← hleft]
          push_cast
          ring
        · rw [if_neg ha0] at hfl ⊢
          rcases hrc : right.constVal? with _ | rc
          · rw [hrc] at hfl
            dsimp only at hfl ⊢
            cases right with
            | var =>
                (try dsimp only at hfl ⊢
                 split_ifs at hfl ⊢ with hstr <;>
                   first
                   | exact sub_self_case F n left _ ok0 av bv v hlr hv2 hfl
                   | exact eval_binary_node F _ left _ n av bv v (hlr hfl).1 (hlr hfl).2 hv)
            | const k =>
                (try dsimp only at hfl ⊢
                 split_ifs at hfl ⊢ with hstr <;>
                   first
                   | exact sub_self_case F n left _ ok0 av bv v hlr hv2 hfl
                   | exact eval_binary_node F _ left _ n av bv v (hlr hfl).1 (hlr hfl).2 hv)
            | binary b2 x y =>
                (try dsimp only at hfl ⊢
                 split_ifs at hfl ⊢ with hstr <;>
                   first
                   | exact sub_self_case F n left _ ok0 av bv v hlr hv2 hfl
                   | exact eval_binary_node F _ left _ n av bv v (hlr hfl).1 (hlr hfl).2 hv)
            | unary u2 uu =>
                cases u2 <;>
                  first
                  | (dsimp only at hfl ⊢
                     rw [Bool.and_eq_true] at hfl
                     obtain ⟨hok, hq⟩ := hfl
                     obtain ⟨hleft, hright⟩ := hlr hok
                     have hrr : (Expr.eval F uu n).bind (evalUnary F .neg) = some bv := hright
                     rw [Option.bind_eq_some] at hrr
                     obtain ⟨w, hw, hbw⟩ := hrr
                     simp only [evalUnary, Option.some_inj] at hbw
                     refine hre _ v hq (eval_binary_node F .add left uu n av w v hleft hw ?_)
                     simp only [evalBinary, Option.some_inj]
                     rw [← hv2, ← hbw]
                     ring)
                  | (try dsimp only at hfl ⊢
                     split_ifs at hfl ⊢ with hstr <;>
                       first
                       | exact sub_self_case F n left _ ok0 av bv v hlr hv2 hfl
                       | exact eval_binary_node F _ left _ n av bv v (hlr hfl).1 (hlr hfl).2 hv)
          · rw [hrc] at hfl
            dsimp only at hfl ⊢
            by_cases hneg : rc < 0
            · rw [if_pos hneg] at hfl ⊢
              dsimp only at hfl ⊢
              rw [Bool.and_eq_true, Bool.and_eq_true] at hfl
              obtain ⟨⟨hok, hwd⟩, hq⟩ := hfl
              have hwrap := of_decide_eq_true hwd
              obtain ⟨hleft, hright⟩ := hlr hok
              obtain rfl := constVal_shape hrc
              rw [eval_const_node, Option.some_inj] at hright
              refine hre _ v hq (eval_binary_node F .add left (.const (wrap64 (-rc))) n
                av ((wrap64 (-rc) : ℤ) : ℚ) v hleft (eval_const_node F _ n) ?_)
              simp only [evalBinary, Option.some_inj]
              rw [hwrap, ← hv2, ← hright]
              push_cast
              ring
            · rw [if_neg hneg] at hfl ⊢
              (try dsimp only at hfl ⊢
               split_ifs at hfl ⊢ with hstr <;>
                 first
                 | exact sub_self_case F n left _ ok0 av bv v hlr hv2 hfl
                 | exact eval_binary_node F _ left _ n av bv v (hlr hfl).1 (hlr hfl).2 hv)
  | mul =>
      dsimp only at hfl ⊢
      have hv2 : evalBinary F .mul av bv = some v := hv
      simp only [evalBinary, Option.some_inj] at hv2
      by_cases hb0 : right.constVal? = some 0
      · rw [if_pos hb0] at hfl ⊢
        obtain ⟨hleft, hright⟩ := hlr hfl
        obtain rfl := constVal_shape hb0
        rw [eval_const_node, Option.some_inj] at hright
        rw [eval_const_node]
        congr 1
        rw [← hv2, ← hright]
        push_cast
        ring
      · rw [if_neg hb0] at hfl ⊢
        by_cases ha0 : left.constVal? = some 0
        · rw [if_pos ha0] at hfl ⊢
          obtain ⟨hleft, hright⟩ := hlr hfl
          obtain rfl := constVal_shape ha0
          rw [eval_const_node, Option.some_inj] at hleft
          rw [eval_const_node]
          congr 1
          rw [← hv2, ← hleft]
          push_cast
          ring
        · rw [if_neg ha0] at hfl ⊢
          by_cases hb1 : right.constVal? = some 1
          · rw [if_pos hb1] at hfl ⊢
            obtain ⟨hleft, hright⟩ := hlr hfl
            obtain rfl := constVal_shape hb1
            rw [eval_const_node, Option.some_inj] at hright
            rw [hleft]
            congr 1
            rw [← hv2, ← hright]
            push_cast
            ring
          · rw [if_neg hb1] at hfl ⊢
            by_cases ha1 : left.constVal? = some 1
            · rw [if_pos ha1] at hfl ⊢
              obtain ⟨hleft, hright⟩ := hlr hfl
              obtain rfl := constVal_shape ha1
              rw [eval_const_node, Option.some_inj] at hleft
              rw [hright]
              congr 1
              rw [← hv2, ← hleft]
              push_cast
              ring
            · rw [if_neg ha1] at hfl ⊢
              by_cases hbm : right.constVal? = some (-1)
              · rw [if_pos hbm] at hfl ⊢
                dsimp only at hfl ⊢
                rw [Bool.and_eq_true] at hfl
                obtain ⟨hok, hq⟩ := hfl
                obtain ⟨hleft, hright⟩ := hlr hok
                obtain rfl := constVal_shape hbm
                rw [eval_const_node, Option.some_inj] at hright
                refine hre _ v hq (eval_unary_node F .neg left n av v hleft ?_)
                simp only [evalUnary, Option.some_inj]
                rw [← hv2, ← hright]
                push_cast
                ring
              · rw [if_neg hbm] at hfl ⊢
                by_cases ham : left.constVal? = some (-1)
                · rw [if_pos ham] at hfl ⊢
                  dsimp only at hfl ⊢
                  rw [Bool.and_eq_true] at hfl
                  obtain ⟨hok, hq⟩ := hfl
                  obtain ⟨hleft, hright⟩ := hlr hok
                  obtain rfl := constVal_shape ham
                  rw [eval_const_node, Option.some_inj] at hleft
                  refine hre _ v hq (eval_unary_node F .neg right n bv v hright ?_)
                  simp only [evalUnary, Option.some_inj]
                  rw [← hv2, ← hleft]
                  push_cast
                  ring
                · rw [if_neg ham] at hfl ⊢
                  exact eval_binary_node F _ left right n av bv v (hlr hfl).1 (hlr hfl).2 hv
  | div =>
      dsimp only at hfl ⊢
      by_cases hb1 : right.constVal? = some 1
      · rw [if_pos hb1] at hfl ⊢
        obtain ⟨hleft, hright⟩ := hlr hfl
        obtain rfl := constVal_shape hb1
        rw [eval_const_node, Option.some_inj] at hright
        have hv2 : evalBinary F .div av bv = some v := hv
        simp only [evalBinary] at hv2
        rw [← hright] at hv2
        rw [if_neg (by norm_num), Option.some_inj] at hv2
        rw [hleft]
        congr 1
        rw [← hv2]
        push_cast
        norm_num
      · rw [if_neg hb1] at hfl ⊢
        by_cases ha0 : left.constVal? = some 0
        · rw [if_pos ha0] at hfl ⊢
          obtain ⟨hleft, hright⟩ := hlr hfl
          obtain rfl := constVal_shape ha0
          rw [eval_const_node, Option.some_inj] at hleft
          have hv2 : evalBinary F .div av bv = some v := hv
          simp only [evalBinary] at hv2
          by_cases hbz : bv = 0
          · rw [if_pos hbz] at hv2
            simp at hv2
          · rw [if_neg hbz, Option.some_inj] at hv2
            rw [eval_const_node]
            congr 1
            rw [← hv2, ← hleft]
            push_cast
            rw [zero_div]
        · rw [if_neg ha0] at hfl ⊢
          by_cases hstr : exprString left = exprString right
          · rw [if_pos hstr] at hfl ⊢
            dsimp only at hfl ⊢
            rw [Bool.and_eq_true] at hfl
            obtain ⟨hok, hd⟩ := hfl
            have heq := of_decide_eq_true hd
            obtain ⟨hleft, hright⟩ := hlr hok
            rw [heq] at hleft
            rw [hleft, Option.some_inj] at hright
            have hv2 : evalBinary F .div av bv = some v := hv
            simp only [evalBinary] at hv2
            by_cases hbz : bv = 0
            · rw [if_pos hbz] at hv2
              simp at hv2
            · rw [if_neg hbz, Option.some_inj] at hv2
              rw [eval_const_node]
              congr 1
              rw [← hv2, hright]
              push_cast
              rw [div_self hbz]
          · rw [if_neg hstr] at hfl ⊢
            exact eval_binary_node F _ left right n av bv v (hlr hfl).1 (hlr hfl).2 hv
  | pow =>
      dsimp only at hfl ⊢
      by_cases hb0 : right.constVal? = some 0
      · rw [if_pos hb0] at hfl ⊢
        obtain ⟨hleft, hright⟩ := hlr hfl
        obtain rfl := constVal_shape hb0
        rw [eval_const_node, Option.some_inj] at hright
        have hv2 : evalBinary F .pow av bv = some v := hv
        simp only [evalBinary] at hv2
        rw [← hright] at hv2
        rw [bigPow_int_exp F av 0 (by norm_num) (by norm_num), Option.some_inj] at hv2
        rw [eval_const_node]
        congr 1
        try rw [← hv2]
        try norm_num
      · rw [if_neg hb0] at hfl ⊢
        by_cases hb1 : right.constVal? = some 1
        · rw [if_pos hb1] at hfl ⊢
          obtain ⟨hleft, hright⟩ := hlr hfl
          obtain rfl := constVal_shape hb1
          rw [eval_const_node, Option.some_inj] at hright
          have hv2 : evalBinary F .pow av bv = some v := hv
          simp only [evalBinary] at hv2
          rw [← hright] at hv2
          rw [bigPow_int_exp F av 1 (by norm_num) (by norm_num), Option.some_inj] at hv2
          rw [hleft]
          congr 1
          try rw [← hv2]
          try norm_num
        · rw [if_neg hb1] at hfl ⊢
          by_cases ha0 : left.constVal? = some 0
          · rw [if_pos ha0] at hfl ⊢
            dsimp only at hfl
            simp at hfl
          · rw [if_neg ha0] at hfl ⊢
            by_cases ha1 : left.constVal? = some 1
            · rw [if_pos ha1] at hfl ⊢
              obtain ⟨hleft, hright⟩ := hlr hfl
              obtain rfl := constVal_shape ha1
              rw [eval_const_node, Option.some_inj] at hleft
              have hv2 : evalBinary F .pow av bv = some v := hv
              simp only [evalBinary] at hv2
              have hav : (1 : ℚ) = av := by exact_mod_cast hleft
              rw [← hav] at hv2
              have hv1 := bigPow_one_base F hpow1 bv v hv2
              rw [eval_const_node]
              congr 1
              try rw [hv1]
              try norm_num
            · rw [if_neg ha1] at hfl ⊢
              exact eval_binary_node F _ left right n av bv v (hlr hfl).1 (hlr hfl).2 hv
  | binomial =>
      dsimp only at hfl ⊢
      exact eval_binary_node F _ left right n av bv v (hlr hfl).1 (hlr hfl).2 hv

/-- Value preservation of the full binary-node step (constant folding plus
the per-operator rewrites) under a true instrumentation flag. -/
lemma simplifyBinaryRules_sound (F : FloatOps)
    (hpow1 : ∀ y : ℚ, F.powf 1 y = 1)
    (re : Expr → Expr × Bool) (n : ℚ)
    (hre : ∀ (u : Expr) (w : ℚ), (re u).2 = true → Expr.eval F u n = some w →
      Expr.eval F (re u).1 n = some w)
    (op : BinaryOp) (left right : Expr) (ok0 : Bool) (av bv v : ℚ)
    (hlr : ok0 = true → Expr.eval F left n = some av ∧ Expr.eval F right n = some bv)
    (hv : evalBinary F op av bv = some v)
    (hfl : (simplifyBinaryRules re op left right ok0).2 = true) :
    Expr.eval F (simplifyBinaryRules re op left right ok0).1 n = some v := by
  unfold simplifyBinaryRules at hfl ⊢
  dsimp only at hfl ⊢
  rcases hcl : left.constVal? with _ | ca
  · rw [hcl] at hfl
    dsimp only at hfl ⊢
    exact simplifyBinaryRewrites_sound F hpow1 re n hre op left right ok0 av bv v hlr hv hfl
  · rw [hcl] at hfl
    rcases hcr : right.constVal? with _ | cb
    · rw [hcr] at hfl
      dsimp only at hfl ⊢
      exact simplifyBinaryRewrites_sound F hpow1 re n hre op left right ok0 av bv v hlr hv hfl
    · rw [hcr] at hfl
      dsimp only at hfl ⊢
      rcases hf : foldConstants op ca cb with _ | res
      · rw [hf] at hfl
        simp only [Option.map_none'] at hfl ⊢
        exact simplifyBinaryRewrites_sound F hpow1 re n hre op left right ok0 av bv v hlr hv hfl
      · rw [hf] at hfl
        simp only [Option.map_some'] at hfl ⊢
        try dsimp only at hfl ⊢
        rw [Bool.and_eq_true] at hfl
        obtain ⟨hok, hd⟩ := hfl
        have hres := of_decide_eq_true hd
        obtain ⟨hleft, hright⟩ := hlr hok
        obtain rfl := constVal_shape hcl
        obtain rfl := constVal_shape hcr
        rw [eval_const_node, Option.some_inj] at hleft hright
        rw [eval_const_node]
        congr 1
        rw [hres]
        cases op with
        | add =>
            have hv2 : evalBinary F .add av bv = some v := hv
            simp only [evalBinary, Option.some_inj] at hv2
            simp only [exactFold]
            rw [← hv2, ← hleft, ← hright]
            push_cast
            ring
        | sub =>
            have hv2 : evalBinary F .sub av bv = some v := hv
            simp only [evalBinary, Option.some_inj] at hv2
            simp only [exactFold]
            rw [← hv2, ← hleft, ← hright]
            push_cast
            ring
        | mul =>
            have hv2 : evalBinary F .mul av bv = some v := hv
            simp only [evalBinary, Option.some_inj] at hv2
            simp only [exactFold]
            rw [← hv2, ← hleft, ← hright]
            push_cast
            ring
        | div =>
            unfold foldConstants at hf
            dsimp only at hf
            split_ifs at hf with h1 h2
            all_goals try simp only [reduceCtorEq] at hf
            · have hv2 : evalBinary F .div av bv = some v := hv
              simp only [evalBinary] at hv2
              have hbz : bv ≠ 0 := by
                rw [← hright]
                exact_mod_cast h1
              rw [if_neg hbz, Option.some_inj] at hv2
              simp only [exactFold]
              rw [← hv2, ← hleft, ← hright]
              exact (int_div_exact ca cb h1 (not_not.mp h2)).symm
        | pow =>
            unfold foldConstants at hf
            dsimp only at hf
            split_ifs at hf with h1 h2
            all_goals try simp only [reduceCtorEq] at hf
            · have hv2 : evalBinary F .pow av bv = some v := hv
              simp only [evalBinary] at hv2
              rw [← hright] at hv2
              rw [bigPow_int_exp F av cb (by omega) (by omega), Option.some_inj] at hv2
              simp only [exactFold]
              rw [← hv2, ← hleft]
              push_cast
              ring
        | binomial =>
            unfold foldConstants at hf
            dsimp only at hf
            simp at hf

/-- Forward value preservation of a single instrumented pass whose flag
is true: every rewrite performed was value-exact. -/
lemma simplifyOnceI_sound (F : FloatOps)
    (hsqrt : ∀ k : ℤ, 0 ≤ k → Int.sqrt k * Int.sqrt k = k → F.sqrt (k : ℚ) = (Int.sqrt k : ℚ))
    (hpow1 : ∀ y : ℚ, F.powf 1 y = 1) :
    ∀ (fuel : ℕ) (t : Expr) (n v : ℚ),
      (simplifyOnceI fuel t).2 = true →
      Expr.eval F t n = some v →
      Expr.eval F ((simplifyOnceI fuel t).1) n = some v := by
  intro fuel
  induction fuel with
  | zero =>
      intro t n v hfl _
      exact absurd hfl (by simp [simplifyOnceI])
  | succ fuel ih =>
      intro t n v hfl hev
      cases t with
      | var => exact hev
      | const k => exact hev
      | unary op c =>
          simp only [simplifyOnceI] at hfl ⊢
          have hev2 : (Expr.eval F c n).bind (evalUnary F op) = some v := hev
          rw [Option.bind_eq_some] at hev2
          obtain ⟨cv, hcv, hu⟩ := hev2
          exact simplifyUnaryRules_sound F hsqrt op _ _ n cv v
            (fun hok => ih c n cv hok hcv) hu hfl
      | binary op l r =>
          simp only [simplifyOnceI] at hfl ⊢
          have hev2 : (Expr.eval F l n).bind (fun a => (Expr.eval F r n).bind
              fun b => evalBinary F op a b) = some v := hev
          rw [Option.bind_eq_some] at hev2
          obtain ⟨av, hav, hev3⟩ := hev2
          rw [Option.bind_eq_some] at hev3
          obtain ⟨bv, hbv, hvv⟩ := hev3
          refine simplifyBinaryRules_sound F hpow1 (fun u => simplifyOnceI fuel u) n
            (fun u w h1 h2 => ih u n w h1 h2) op _ _ _ av bv v ?_ hvv hfl
          intro hok
          rw [Bool.and_eq_true] at hok
          exact ⟨ih l n av hok.1 hav, ih r n bv hok.2 hbv⟩

/-- The iterated simplification never increases the node count. -/
lemma simplifyIter_nodeCount : ∀ (k : ℕ) (t : Expr),
    ((simplifyIter k t).1).nodeCount ≤ t.nodeCount := by
  intro k
  induction k with
  | zero => intro t; exact le_refl _
  | succ k ih =>
      intro t
      simp only [simplifyIter]
      split_ifs with hs
      · exact simplifyOnceI_nodeCount _ _
      · exact le_trans (ih _) (simplifyOnceI_nodeCount _ _)

/-- Forward value preservation of the iterated simplification when every
pass performed only value-exact rewrites. -/
lemma simplifyIter_sound (F : FloatOps)
    (hsqrt : ∀ k : ℤ, 0 ≤ k → Int.sqrt k * Int.sqrt k = k → F.sqrt (k : ℚ) = (Int.sqrt k : ℚ))
    (hpow1 : ∀ y : ℚ, F.powf 1 y = 1) :
    ∀ (k : ℕ) (t : Expr) (n v : ℚ),
      (simplifyIter k t).2 = true → Expr.eval F t n = some v →
      Expr.eval F ((simplifyIter k t).1) n = some v := by
  intro k
  induction k with
  | zero => intro t n v _ hev; exact hev
  | succ k ih =>
      intro t n v hfl hev
      simp only [simplifyIter] at hfl ⊢
      split_ifs at hfl ⊢ with hs
      · exact simplifyOnceI_sound F hsqrt hpow1 _ t n v hfl hev
      · dsimp only at hfl ⊢
        rw [Bool.and_eq_true] at hfl
        exact ih _ n v hfl.2 (simplifyOnceI_sound F hsqrt hpow1 _ t n v hfl.1 hev)

/-- A concrete `FloatOps` satisfying the two platform-math laws assumed of
the correctly rounded `math.Sqrt` and `math.Pow`: the square root of an
integer perfect square is exact, and `1^y = 1`. -/
def wOps : FloatOps where
  sin := fun _ => 0
  cos := fun _ => 0
  ln := fun _ => 0
  sqrt := fun q => ((Int.sqrt q.num : ℤ) : ℚ)
  powf := fun _ _ => 1
  log10 := fun _ => 0

/-- C7, counterexample to the equivalence half: the `0^x → 0` rewrite is not
value-preserving.  The tree `0 ^ n` evaluates to `1` at `n = 0` (both
evaluators compute `0^0 = 1`), but `Simplify` rewrites it to the constant
`0`, which evaluates to `0 ≠ 1` — so an input where both the original and
the simplified tree evaluate successfully can yield different values. -/
theorem simplify_changes_value_on_zero_pow :
    Expr.eval wOps (.binary .pow (.const 0) .var) 0 = some 1 ∧
    Simplify (.binary .pow (.const 0) .var) = .const 0 ∧
    Expr.eval wOps (Simplify (.binary .pow (.const 0) .var)) 0 = some 0 ∧
    (1 : ℚ) ≠ 0 := by
  refine ⟨?_, ?_, ?_, by norm_num⟩
  · have h1 : Expr.eval wOps (.binary .pow (.const 0) .var) 0
        = bigPow wOps ((0 : ℤ) : ℚ) (0 : ℚ) := rfl
    rw [h1, show (0 : ℚ) = ((0 : ℤ) : ℚ) by norm_num,
      bigPow_int_exp wOps _ 0 (by norm_num) (by norm_num)]
    norm_num
  · decide
  · rw [show Simplify (.binary .pow (.const 0) .var) = .const 0 by decide,
      eval_const_node]
    norm_num

/-- C7 (amended): the simplifier never grows the node count; and whenever
every rewrite it performed was value-exact (`simplifySound`, which excludes
the `0^x → 0` rewrite, wrapping `int64` constant folds and the string-based
`x - x` / `x / x` identifications), it preserves evaluation: any input at
which both the original and the simplified tree evaluate successfully gives
the same value — assuming the platform square root is exact on perfect
squares and `1^y = 1`. -/
theorem simplify_size_and_guarded_equivalence (F : FloatOps)
    (hsqrt : ∀ k : ℤ, 0 ≤ k → Int.sqrt k * Int.sqrt k = k → F.sqrt (k : ℚ) = (Int.sqrt k : ℚ))
    (hpow1 : ∀ y : ℚ, F.powf 1 y = 1) (t : Expr) (n v w : ℚ) :
    (Simplify t).nodeCount ≤ t.nodeCount ∧
    (simplifySound t = true → Expr.eval F t n = some v →
      Expr.eval F (Simplify t) n = some w → v = w) := by
  constructor
  · exact simplifyIter_nodeCount 20 t
  · intro hs hv hw
    have h2 := simplifyIter_sound F hsqrt hpow1 20 t n v hs hv
    unfold Simplify at hw
    rw [h2, Option.some_inj] at hw
    exact hw

/-- Witness for the amended C7 theorem: the concrete instance `wOps`, the
tree `n + 0` (whose simplification is sound and shrinks it to `n`) and the
input `3`. -/
theorem simplify_size_and_guarded_equivalence_witness :
    (Simplify (.binary .add .var (.const 0))).nodeCount ≤
      (Expr.binary .add .var (.const 0)).nodeCount ∧
    (simplifySound (.binary .add .var (.const 0)) = true →
      Expr.eval wOps (.binary .add .var (.const 0)) 3 = some 3 →
      Expr.eval wOps (Simplify (.binary .add .var (.const 0))) 3 = some 3 →
      (3 : ℚ) = 3) :=
  simplify_size_and_guarded_equivalence wOps
    (fun k _ _ => by simp [wOps])
    (fun _ => rfl) (.binary .add .var (.const 0)) 3 3 3

end GeneticSeries
